import Mathlib

/-!
Verification of the `testcases` traceability tool (Go, `src/main.go`).

The tool scans test-source files for `patrolTest("...")` description
literals, splits each description into tag/body using two regexes,
parses a pipe-delimited requirements table, and renders a report.

We embed the Go code shallowly:

* Strings are `List Char`.
* Go's `regexp` package (RE2, `regexp.Compile`, i.e. leftmost-first
  Perl-like semantics) is modelled by a small token-sequence matcher
  with greedy backtracking, enough for the four patterns the program
  compiles, all of which are concatenations of literals, single-character
  classes, and (possibly capturing) starred / plussed character classes:
    - tag pattern         : `(\S+):`
    - body pattern        : `[^:]\s*([^:]*)$`
    - requirements pattern: `\|\s*(\w*)\s*\|\s*([\s\w]+)\s*\|`
    - patrolTest pattern  : `patrolTest\(\s*['"](.+)['"]`
* `FindStringSubmatch` is the leftmost match (scan start positions left
  to right, at each position try the greedy backtracking match);
  `FindAllStringSubmatch(_, -1)` iterates non-overlapping matches,
  resuming after each match end.
* File I/O is a partial map from path to content; `main`'s pipeline
  returns `Except`, with `.error` for the paths on which the Go program
  prints the error and calls `os.Exit(1)`.
* The Go `map[string][]Specification` is modelled as an association
  list in first-insertion order; since Go's map iteration order is
  unspecified, every function that ranges over the map takes the
  iteration order as an explicit `order` parameter.
-/

namespace Testcases

/-! Character classes of the Go regexes (RE2 ASCII classes). -/

/-- RE2 `\s`: `[\t\n\f\r ]`. -/
def isGoSpace (c : Char) : Bool :=
  c = ' ' || c = '\t' || c = '\n' || c = Char.ofNat 12 || c = '\r'

/-- RE2 `\S`. -/
def isGoNonSpace (c : Char) : Bool := !isGoSpace c

/-- RE2 `\w`: `[0-9A-Za-z_]`. -/
def isWordChar (c : Char) : Bool :=
  ('a' ≤ c && c ≤ 'z') || ('A' ≤ c && c ≤ 'Z') || ('0' ≤ c && c ≤ '9') || c = '_'

/-- RE2 `[\s\w]`. -/
def isSpaceOrWord (c : Char) : Bool := isGoSpace c || isWordChar c

/-- RE2 `[^:]`. -/
def isNotColon (c : Char) : Bool := c ≠ ':'

/-- RE2 `['"]`. -/
def isQuote (c : Char) : Bool := c = '\'' || c = '"'

/-- RE2 `.` (any character but newline; no `s` flag in the program). -/
def isDot (c : Char) : Bool := c ≠ '\n'

/-- `unicode.IsSpace` on the characters relevant here (Go
`strings.TrimSpace`): `\t\n\v\f\r `, NEL and NBSP. -/
def isUniSpace (c : Char) : Bool :=
  c = ' ' || c = '\t' || c = '\n' || c = Char.ofNat 11 || c = Char.ofNat 12 ||
  c = '\r' || c = Char.ofNat 0x85 || c = Char.ofNat 0xA0

/-- Go `strings.TrimSpace`. -/
def goTrimSpace (s : List Char) : List Char :=
  ((s.dropWhile isUniSpace).reverse.dropWhile isUniSpace).reverse

/-! A tiny regex engine for the four patterns.

A pattern is a list of tokens; a token is a literal character, a
single-character class, or a (possibly capturing) greedy star/plus of a
character class.  This is exactly the shape of the four patterns the Go
program compiles.  The matcher implements leftmost-first semantics: at
the current position, greedy quantifiers take the maximal run and
backtrack one character at a time on failure of the continuation. -/

inductive Tok where
  /-- literal character -/
  | lit : Char → Tok
  /-- single character of a class -/
  | cls : (Char → Bool) → Tok
  /-- greedy, non-capturing `p*` -/
  | star : (Char → Bool) → Tok
  /-- greedy, capturing `(p*)` -/
  | gstar : (Char → Bool) → Tok
  /-- greedy, capturing `(p+)` -/
  | gplus : (Char → Bool) → Tok

/-- Greedy backtracking driver.  `revTaken` is the reversed list of
characters currently consumed by the quantifier, `rest` the input after
them.  Try the continuation `k` on the current split (passing the
consumed characters in input order); on failure give one character back
(from the right) and retry. -/
def bkGreedy (k : List Char → List Char → Option α) :
    List Char → List Char → Option α
  | revTaken, rest =>
    match k revTaken.reverse rest with
    | some v => some v
    | none =>
      match revTaken with
      | [] => none
      | c :: rt => bkGreedy k rt (c :: rest)

/-- Match a token sequence at the start of the input.  `anchor` is an
end-of-text `$` at the end of the pattern.  Returns the capture-group
contents (in group order) and the input remaining after the match. -/
def matchToks : List Tok → Bool → List Char → Option (List (List Char) × List Char)
  | [], anchor, s =>
    if anchor then (match s with | [] => some ([], []) | _ :: _ => none)
    else some ([], s)
  | Tok.lit c :: ts, a, s =>
    match s with
    | [] => none
    | x :: s' => if x = c then matchToks ts a s' else none
  | Tok.cls p :: ts, a, s =>
    match s with
    | [] => none
    | x :: s' => if p x then matchToks ts a s' else none
  | Tok.star p :: ts, a, s =>
    let m := s.takeWhile p
    bkGreedy (fun _ rest => matchToks ts a rest) m.reverse (s.drop m.length)
  | Tok.gstar p :: ts, a, s =>
    let m := s.takeWhile p
    bkGreedy (fun cap rest => (matchToks ts a rest).map fun pr => (cap :: pr.1, pr.2))
      m.reverse (s.drop m.length)
  | Tok.gplus p :: ts, a, s =>
    match s with
    | [] => none
    | x :: s' =>
      if p x then
        let m := s'.takeWhile p
        bkGreedy (fun cap rest => (matchToks ts a rest).map fun pr => ((x :: cap) :: pr.1, pr.2))
          m.reverse (s'.drop m.length)
      else none

/-- Leftmost match: try each start position from the left. -/
def findFrom (toks : List Tok) (a : Bool) : List Char → Option (List (List Char) × List Char)
  | [] => matchToks toks a []
  | c :: s' =>
    match matchToks toks a (c :: s') with
    | some v => some v
    | none => findFrom toks a s'

/-- Go `Regexp.FindStringSubmatch`, restricted to the capture groups
(the program only reads `match[1]`, `match[2]` and tests emptiness). -/
def findFirstSubmatch (toks : List Tok) (a : Bool) (s : List Char) :
    Option (List (List Char)) :=
  (findFrom toks a s).map (·.1)

/-- Iterated non-overlapping matches, resuming after each match's end;
`fuel` bounds the number of matches (instantiated to `s.length + 1`,
enough since every pattern the program uses with `FindAll` consumes at
least one character per match, so the zero-progress fallback that skips
one character never fires for them). -/
def findAllAux (toks : List Tok) (a : Bool) : Nat → List Char → List (List (List Char))
  | 0, _ => []
  | fuel + 1, s =>
    match findFrom toks a s with
    | none => []
    | some (caps, rest) =>
      caps :: (if rest.length < s.length then findAllAux toks a fuel rest
               else findAllAux toks a fuel (rest.drop 1))

/-- Go `Regexp.FindAllStringSubmatch(s, -1)`, capture groups only. -/
def findAllSubmatch (toks : List Tok) (s : List Char) : List (List (List Char)) :=
  findAllAux toks false (s.length + 1) s

/-! The four patterns the program compiles. -/

/-- Tag pattern `(\S+):` of `createSpecificationMap`. -/
def tagToks : List Tok := [Tok.gplus isGoNonSpace, Tok.lit ':']

/-- Body pattern `[^:]\s*([^:]*)$` (`specRegex`) of
`createSpecificationMap`; anchored at end of text. -/
def bodyToks : List Tok := [Tok.cls isNotColon, Tok.star isGoSpace, Tok.gstar isNotColon]

/-- Row pattern `\|\s*(\w*)\s*\|\s*([\s\w]+)\s*\|` of
`parseRequirementsFile`. -/
def reqToks : List Tok :=
  [Tok.lit '|', Tok.star isGoSpace, Tok.gstar isWordChar, Tok.star isGoSpace,
   Tok.lit '|', Tok.star isGoSpace, Tok.gplus isSpaceOrWord, Tok.star isGoSpace,
   Tok.lit '|']

/-- Extraction pattern `patrolTest\(\s*['"](.+)['"]` of
`parseTestFiles`. -/
def patrolToks : List Tok :=
  ("patrolTest(".toList.map Tok.lit) ++
  [Tok.star isGoSpace, Tok.cls isQuote, Tok.gplus isDot, Tok.cls isQuote]

/-! Data model: the structs of `src/main.go`. -/

structure TestCase where
  Description : List Char
  File : List Char
  deriving DecidableEq, Repr

structure Specification where
  Description : List Char
  File : List Char
  deriving DecidableEq, Repr

structure Requirement where
  Tag : List Char
  Description : List Char
  deriving DecidableEq, Repr

/-! Line splitting: `bufio.Scanner` with the default `ScanLines`. -/

/-- Drop one trailing `\r` (Go's `dropCR`). -/
def dropCR (s : List Char) : List Char :=
  match s.reverse with
  | '\r' :: r => r.reverse
  | _ => s

/-- Accumulating scanner: `acc` is the reversed current line. -/
def splitLinesGo : List Char → List Char → List (List Char)
  | acc, [] => [dropCR acc.reverse]
  | acc, '\n' :: rest =>
    dropCR acc.reverse :: (match rest with | [] => [] | _ :: _ => splitLinesGo [] rest)
  | acc, c :: rest => splitLinesGo (c :: acc) rest

/-- The lines `bufio.Scanner` yields on `s` (none on empty input; a
final line without a newline is yielded; `\r\n` endings are stripped). -/
def splitLines (s : List Char) : List (List Char) :=
  match s with
  | [] => []
  | _ :: _ => splitLinesGo [] s

/-! Embedding of `parseRequirementsFile`. -/

/-- Body of the scanner loop in `parseRequirementsFile`: the
requirements a single line contributes.  A line with no match of the
row pattern is skipped; a matched row is skipped when the raw first
capture is `"Tag"`/`"tag"` or the raw second capture is
`"Description"`/`"description"`; otherwise a `Requirement` with both
captures trimmed is emitted. -/
def lineRequirements (line : List Char) : List Requirement :=
  match findFirstSubmatch reqToks false line with
  | none => []
  | some caps =>
    let m1 := caps.getD 0 []
    let m2 := caps.getD 1 []
    if m1 = "Tag".toList ∨ m1 = "tag".toList then []
    else if m2 = "Description".toList ∨ m2 = "description".toList then []
    else [⟨goTrimSpace m1, goTrimSpace m2⟩]

/-- The whole of `parseRequirementsFile`, applied to the file content. -/
def parseRequirementsContent (content : List Char) : List Requirement :=
  (splitLines content).foldl (fun acc line => acc ++ lineRequirements line) []

/-- The file system: a partial map from path to content. -/
def FS := List Char → Option (List Char)

/-- Function `parseRequirementsFile` including the `os.Open` step: an unreadable
(or empty, hence nonexistent) path is an error, which `main` turns into
`os.Exit(1)`. -/
def parseRequirementsFile (fs : FS) (path : List Char) :
    Except (List Char) (List Requirement) :=
  match fs path with
  | none => .error ("open ".toList ++ path)
  | some content => .ok (parseRequirementsContent content)

/-! Embedding of `parseTestFiles`. -/

/-- The `TestCase`s one file's content contributes. -/
def parseTestFilesContent (content : List Char) (file : List Char) : List TestCase :=
  (findAllSubmatch patrolToks content).map fun caps => ⟨caps.getD 0 [], file⟩

/-- Function `parseTestFiles`: read each file in order, aborting on the first
unreadable one; concatenate the per-file matches in order. -/
def parseTestFiles (fs : FS) : List (List Char) → Except (List Char) (List TestCase)
  | [] => .ok []
  | f :: rest =>
    match fs f with
    | none => .error ("read ".toList ++ f)
    | some content =>
      (parseTestFiles fs rest).map (fun tcs => parseTestFilesContent content f ++ tcs)

/-! Embedding of `createSpecificationMap`.

The Go map is an association list in first-insertion order; appending
to a bucket keeps the key's position. -/

/-- Go `specificationMap[tag] = append(specificationMap[tag], spec)`. -/
def mapAppend (m : List (List Char × List Specification)) (k : List Char)
    (v : Specification) : List (List Char × List Specification) :=
  match m with
  | [] => [(k, [v])]
  | (k', vs) :: rest =>
    if k' = k then (k', vs ++ [v]) :: rest else (k', vs) :: mapAppend rest k v

/-- Lookup in the association list (`specificationMap[tag]`). -/
def alookup (m : List (List Char × List Specification)) (k : List Char) :
    Option (List Specification) :=
  match m with
  | [] => none
  | (k', vs) :: rest => if k' = k then some vs else alookup rest k

/-- The loop of `createSpecificationMap`.  For each test case the body
capture is computed first — Go indexes `FindStringSubmatch(...)[1]`
unconditionally, so a description on which the body pattern has no
match is a runtime panic, modelled as `none`.  Then the same `spec` is
appended to the bucket of every tag-pattern match; if there is none,
it is appended to the untagged list. -/
def createSpecAux :
    List (List Char × List Specification) × List Specification → List TestCase →
    Option (List (List Char × List Specification) × List Specification)
  | acc, [] => some acc
  | (m, untagged), tc :: rest =>
    match findFirstSubmatch bodyToks true tc.Description with
    | none => none
    | some caps =>
      let spec : Specification := ⟨caps.getD 0 [], tc.File⟩
      let tagMatches := findAllSubmatch tagToks tc.Description
      match tagMatches with
      | [] => createSpecAux (m, untagged ++ [spec]) rest
      | _ :: _ =>
        createSpecAux
          (tagMatches.foldl (fun m' t => mapAppend m' (t.getD 0 []) spec) m, untagged)
          rest

/-- Function `createSpecificationMap` (returns `none` where Go panics). -/
def createSpecificationMap (testcases : List TestCase) :
    Option (List (List Char × List Specification) × List Specification) :=
  createSpecAux ([], []) testcases

/-- The tags the tag pattern detects in a description (first capture of
each non-overlapping match). -/
def detectedTags (description : List Char) : List (List Char) :=
  (findAllSubmatch tagToks description).map (·.getD 0 [])

/-- The body capture the body pattern extracts from a description
(`none` where Go panics). -/
def bodyCapture (description : List Char) : Option (List Char) :=
  (findFirstSubmatch bodyToks true description).map (·.getD 0 [])

/-- The suffix of `s` after its last colon (the whole of `s` when it
has no colon); used to state what the body pattern computes. -/
def colonFreeSuffix : List Char → List Char
  | [] => []
  | c :: t => if ':' ∈ c :: t then colonFreeSuffix t else c :: t

/-! Report rendering: `printSpecificationMap`, `printSpecs`,
`storeSpecificationMap`.

Rendering ranges over the Go map; its unspecified iteration order is
the explicit `order` parameter (a list of keys). -/

/-- Function `printSpecs`: title line, then either the placeholder or one line
per specification, then a blank line. -/
def printSpecs (title : List Char) (specs : List Specification) : List (List Char) :=
  title ::
    (match specs with
     | [] => ["  (no specifications found)".toList]
     | _ :: _ =>
       specs.map fun sp => "  - ".toList ++ sp.Description ++ " (".toList ++ sp.File ++ ")".toList) ++
    [[]]

/-- Function `printSpecificationMap`: requirement sections in requirement order
(accumulating the requirement tags), then sections for map keys not
among the requirement tags in the map's iteration `order`, then the
untagged section if the untagged list is non-empty.  Returns the
printed lines. -/
def printSpecificationMap (m : List (List Char × List Specification))
    (untagged : List Specification) (requirements : List Requirement)
    (order : List (List Char)) : List (List Char) :=
  let step := fun (p : List (List Char) × List (List Char)) (req : Requirement) =>
    (p.1 ++ [req.Tag],
     p.2 ++ printSpecs (req.Tag ++ ": ".toList ++ req.Description) ((alookup m req.Tag).getD []))
  let p := requirements.foldl step ([], [])
  let out2 := order.foldl
    (fun acc tag =>
      if p.1.contains tag then acc
      else acc ++ printSpecs (tag ++ ": (no requirement description available)".toList)
        ((alookup m tag).getD []))
    p.2
  match untagged with
  | [] => out2
  | _ :: _ => out2 ++ printSpecs "(untagged specifications)".toList untagged

/-- One markdown bullet for a specification. -/
def mdItem (sp : Specification) : List Char :=
  "    - ".toList ++ sp.Description ++ " *(".toList ++ sp.File ++ ")*\n".toList

/-- Function `storeSpecificationMap`: the markdown document it writes (the
`MkdirAll`/`OpenFile`/`WriteString` plumbing is out of scope).  Same
section order as the console rendering; a requirement tag absent from
the map gets the placeholder, orphan keys follow in the map's
iteration `order`, the untagged section is last and only when
non-empty. -/
def storeSpecificationMap (m : List (List Char × List Specification))
    (untagged : List Specification) (requirements : List Requirement)
    (order : List (List Char)) : List Char :=
  let header := "# Specifications Map (generated)\n\n".toList
  let step := fun (p : List (List Char) × List Char) (req : Requirement) =>
    (p.1 ++ [req.Tag],
     p.2 ++ "- **".toList ++ req.Tag ++ ": ".toList ++ req.Description ++ "**\n".toList ++
       (match alookup m req.Tag with
        | some specs => (specs.map mdItem).flatten
        | none => "    (no specifications found)\n".toList))
  let p := requirements.foldl step ([], header)
  let out2 := order.foldl
    (fun acc tag =>
      if p.1.contains tag then acc
      else acc ++ "- **".toList ++ tag ++ ":**(no requirement description available)\n".toList ++
        (((alookup m tag).getD []).map mdItem).flatten)
    p.2
  match untagged with
  | [] => out2
  | _ :: _ =>
    out2 ++ "- **(untagged specifications)**\n".toList ++ (untagged.map mdItem).flatten

/-! Embedding of `main`. -/

/-- The pipeline of `main` up to printing the report: parse the test
files, parse the requirements file, build the specification map, print.
Each `.error` is a path on which the Go program prints the error and
exits with status 1 before any report output; in particular no report
lines exist in the error case. -/
def mainRun (fs : FS) (testFiles : List (List Char)) (reqsPath : List Char)
    (order : List (List Char)) : Except (List Char) (List (List Char)) :=
  match parseTestFiles fs testFiles with
  | .error e => .error e
  | .ok testcases =>
    match parseRequirementsFile fs reqsPath with
    | .error e => .error e
    | .ok requirements =>
      match createSpecificationMap testcases with
      | none => .error "runtime error: index out of range".toList
      | some (m, untagged) => .ok (printSpecificationMap m untagged requirements order)

/-! Basic list lemmas used throughout. -/

theorem takeWhile_all_append (p : Char → Bool) (a b : List Char)
    (ha : ∀ c ∈ a, p c = true) :
    (a ++ b).takeWhile p = a ++ b.takeWhile p := by
  induction a with
  | nil => simp
  | cons x xs ih =>
    have hx : p x = true := ha x (List.mem_cons_self x xs)
    simp [List.takeWhile_cons_of_pos hx, ih fun c hc => ha c (List.mem_cons_of_mem x hc)]

theorem takeWhile_eq_self_of_all (p : Char → Bool) (l : List Char)
    (h : ∀ c ∈ l, p c = true) : l.takeWhile p = l := by
  have := takeWhile_all_append p l [] h
  simpa using this

theorem dropWhile_all_append (p : Char → Bool) (a b : List Char)
    (ha : ∀ c ∈ a, p c = true) :
    (a ++ b).dropWhile p = b.dropWhile p := by
  induction a with
  | nil => simp
  | cons x xs ih =>
    have hx : p x = true := ha x (List.mem_cons_self x xs)
    simp [List.dropWhile_cons_of_pos hx, ih fun c hc => ha c (List.mem_cons_of_mem x hc)]

theorem dropWhile_eq_self_of_head (p : Char → Bool) (l : List Char)
    (h : ∀ c r, l = c :: r → p c = false) : l.dropWhile p = l := by
  cases l with
  | nil => simp
  | cons c r =>
    have hc : p c = false := h c r rfl
    have hc' : ¬ p c = true := by simp [hc]
    simp [List.dropWhile_cons_of_neg hc']

theorem mem_takeWhile_mem (p : Char → Bool) (l : List Char) (c : Char)
    (h : c ∈ l.takeWhile p) : c ∈ l := by
  induction l with
  | nil => simpa using h
  | cons x xs ih =>
    by_cases hx : p x
    · rw [List.takeWhile_cons_of_pos hx] at h
      rcases List.mem_cons.1 h with h | h
      · exact h ▸ List.mem_cons_self x xs
      · exact List.mem_cons_of_mem x (ih h)
    · rw [List.takeWhile_cons_of_neg hx] at h
      simp at h

theorem mem_dropWhile_of_mem (p : Char → Bool) (l : List Char) (c : Char)
    (hc : c ∈ l) (hp : p c = false) : c ∈ l.dropWhile p := by
  induction l with
  | nil => simpa using hc
  | cons x xs ih =>
    by_cases hx : p x
    · rw [List.dropWhile_cons_of_pos hx]
      rcases List.mem_cons.1 hc with h | h
      · subst h; rw [hx] at hp; cases hp
      · exact ih h
    · rw [List.dropWhile_cons_of_neg hx]
      exact hc

theorem dropWhile_ne_nil_of_mem (p : Char → Bool) (l : List Char) (c : Char)
    (hc : c ∈ l) (hp : p c = false) : l.dropWhile p ≠ [] := by
  intro hnil
  have := mem_dropWhile_of_mem p l c hc hp
  rw [hnil] at this
  simp at this

theorem drop_takeWhile_len (p : Char → Bool) (l : List Char) :
    l.drop (l.takeWhile p).length = l.dropWhile p := by
  induction l with
  | nil => simp
  | cons x xs ih =>
    by_cases hx : p x
    · simp [List.takeWhile_cons_of_pos hx, List.dropWhile_cons_of_pos hx, ih]
    · simp [List.takeWhile_cons_of_neg hx, List.dropWhile_cons_of_neg hx]

theorem drop_len_append (a b : List Char) : (a ++ b).drop a.length = b := by
  induction a with
  | nil => simp
  | cons x xs ih => simpa using ih

/-! Generic lemmas about the greedy backtracking driver. -/

theorem bkGreedy_first {α : Type} (k : List Char → List Char → Option α)
    (revTaken rest : List Char) {v : α}
    (h : k revTaken.reverse rest = some v) :
    bkGreedy k revTaken rest = some v := by
  cases revTaken with
  | nil =>
    simp only [List.reverse_nil] at h
    simp only [bkGreedy, List.reverse_nil, h]
  | cons c rt =>
    simp only [List.reverse_cons] at h
    simp only [bkGreedy, List.reverse_cons, h]

theorem bkGreedy_none_P {α : Type} (k : List Char → List Char → Option α)
    (P : List Char → Prop) :
    ∀ (revTaken rest : List Char), P rest →
    (∀ c r, c ∈ revTaken → P r → P (c :: r)) →
    (∀ cap r, P r → k cap r = none) →
    bkGreedy k revTaken rest = none := by
  intro revTaken
  induction revTaken with
  | nil =>
    intro rest hrest _ hk
    simp [bkGreedy, hk _ _ hrest]
  | cons c rt ih =>
    intro rest hrest hmono hk
    have h1 : k (c :: rt).reverse rest = none := hk _ _ hrest
    simp only [bkGreedy, h1]
    exact ih (c :: rest) (hmono c rest (List.mem_cons_self c rt) hrest)
      (fun c' r hc' hr => hmono c' r (List.mem_cons_of_mem c hc') hr) hk

/-- Shift the backtracking driver over a stretch `a` of characters that
all fail the head test `q`, given that the continuation fails whenever
its input does not start with a `q`-character. -/
theorem bkGreedy_shift {α : Type} (k : List Char → List Char → Option α)
    (q : Char → Bool)
    (hfail : ∀ cap r, (∀ c r', r = c :: r' → q c = false) → k cap r = none) :
    ∀ (a b rest : List Char), (∀ c ∈ a, q c = false) →
    (∀ c r', rest = c :: r' → q c = false) →
    bkGreedy k (a ++ b) rest = bkGreedy k b (a.reverse ++ rest) := by
  intro a
  induction a with
  | nil => intro b rest _ _; rfl
  | cons c a' ih =>
    intro b rest ha hrest
    have hc : q c = false := ha c (List.mem_cons_self c a')
    have h1 : k (c :: a' ++ b).reverse rest = none := hfail _ _ hrest
    simp only [List.cons_append] at h1 ⊢
    simp only [bkGreedy, h1]
    have := ih b (c :: rest) (fun x hx => ha x (List.mem_cons_of_mem c hx))
      (fun x r' hx => by cases hx; exact hc)
    rw [this]
    simp

/-- Success of the driver at the split marked by the character `qc`:
everything consumed after `qc` (the stretch `a`) fails the head test,
the continuation fails without a leading `q`-character, and succeeds at
the marked split. -/
theorem bkGreedy_found {α : Type} (k : List Char → List Char → Option α)
    (q : Char → Bool) (a b rest : List Char) (qc : Char) {v : α}
    (hfail : ∀ cap r, (∀ c r', r = c :: r' → q c = false) → k cap r = none)
    (ha : ∀ c ∈ a, q c = false)
    (hrest : ∀ c r', rest = c :: r' → q c = false)
    (hsucc : k b.reverse (qc :: (a.reverse ++ rest)) = some v) :
    bkGreedy k (a ++ qc :: b) rest = some v := by
  rw [bkGreedy_shift k q hfail a (qc :: b) rest ha hrest]
  have hheads : ∀ c r', a.reverse ++ rest = c :: r' → q c = false := by
    intro c r' h
    cases hrev : a.reverse with
    | nil =>
      rw [hrev] at h
      simp only [List.nil_append] at h
      exact hrest c r' h
    | cons x xs =>
      rw [hrev] at h
      simp only [List.cons_append, List.cons.injEq] at h
      have hx : x ∈ a := by
        have : x ∈ a.reverse := by rw [hrev]; exact List.mem_cons_self x xs
        simpa using this
      exact h.1 ▸ ha x hx
  have h1 : k (qc :: b).reverse (a.reverse ++ rest) = none := hfail _ _ hheads
  simp only [bkGreedy, h1]
  exact bkGreedy_first k b (qc :: (a.reverse ++ rest)) hsucc

/-! Lemmas about the tag pattern `(\S+):`.

The pattern is applied with `FindAllStringSubmatch`, i.e. it scans the
whole description; at a given position the greedy `\S+` backtracks to
the last colon of the maximal non-whitespace run. -/

theorem colon_nonSpace : isGoNonSpace ':' = true := by decide

theorem tagMatch_at (x : Char) (t' u : List Char)
    (hx : isGoSpace x = false)
    (hts : ∀ c ∈ t', isGoNonSpace c = true) (htc : ':' ∉ t')
    (huc : ':' ∉ u.takeWhile isGoNonSpace) :
    matchToks tagToks false (x :: (t' ++ ':' :: u)) = some ([x :: t'], u) := by
  have hxn : isGoNonSpace x = true := by simp [isGoNonSpace, hx]
  have hm : (t' ++ ':' :: u).takeWhile isGoNonSpace
      = t' ++ ':' :: u.takeWhile isGoNonSpace := by
    rw [takeWhile_all_append isGoNonSpace t' (':' :: u) hts,
        List.takeWhile_cons_of_pos colon_nonSpace]
  have hsplit : t' ++ ':' :: u
      = (t' ++ ':' :: u.takeWhile isGoNonSpace) ++ u.dropWhile isGoNonSpace := by
    simp [List.takeWhile_append_dropWhile]
  have hdrop : (t' ++ ':' :: u).drop (t' ++ ':' :: u.takeWhile isGoNonSpace).length
      = u.dropWhile isGoNonSpace := by
    conv_lhs => rw [hsplit]
    exact drop_len_append _ _
  have hrev : (t' ++ ':' :: u.takeWhile isGoNonSpace).reverse
      = (u.takeWhile isGoNonSpace).reverse ++ ':' :: t'.reverse := by
    simp
  simp only [tagToks, matchToks, hxn, if_true, hm, hdrop, hrev]
  apply bkGreedy_found _ (fun c => decide (c = ':'))
  · intro cap r hr
    cases r with
    | nil => simp [matchToks]
    | cons c r' =>
      have : (decide (c = ':')) = false := hr c r' rfl
      have hc : ¬ c = ':' := by simpa using this
      simp [matchToks, hc]
  · intro c hc
    have : c ∈ u.takeWhile isGoNonSpace := by simpa using hc
    have : c ≠ ':' := fun h => huc (h ▸ this)
    simpa using this
  · intro c r' h
    have hhd : isGoNonSpace c = false := by
      have h2 := List.head?_dropWhile_not isGoNonSpace u
      rw [h] at h2
      simpa using h2
    have : c ≠ ':' := by
      intro hc; subst hc; rw [colon_nonSpace] at hhd; cases hhd
    simpa using this
  · simp only [List.reverse_reverse, List.takeWhile_append_dropWhile]
    simp [matchToks]

theorem tagMatch_none (s : List Char) (h : ':' ∉ s) :
    matchToks tagToks false s = none := by
  cases s with
  | nil => simp [tagToks, matchToks]
  | cons x s' =>
    by_cases hx : isGoNonSpace x = true
    · simp only [tagToks, matchToks, hx, if_true]
      apply bkGreedy_none_P _ (fun r => ':' ∉ r)
      · intro hmem
        have : ':' ∈ x :: s' := by
          apply List.mem_cons_of_mem
          exact List.mem_of_mem_drop hmem
        exact h this
      · intro c r hcrev hr hmem
        rcases List.mem_cons.1 hmem with hc | hc
        · apply h
          apply List.mem_cons_of_mem
          apply mem_takeWhile_mem isGoNonSpace s'
          subst hc
          simpa using hcrev
        · exact hr hc
      · intro cap r hr
        cases r with
        | nil => simp [matchToks]
        | cons c r' =>
          have hc : ¬ c = ':' := fun hceq => hr (hceq ▸ List.mem_cons_self c r')
          simp [matchToks, hc]
    · simp [tagToks, matchToks, hx]

theorem findFrom_tag_none (s : List Char) (h : ':' ∉ s) :
    findFrom tagToks false s = none := by
  induction s with
  | nil => simpa [findFrom] using tagMatch_none [] h
  | cons c s' ih =>
    have h' : ':' ∉ s' := fun hm => h (List.mem_cons_of_mem c hm)
    simp [findFrom, tagMatch_none (c :: s') h, ih h']

theorem findFrom_tag_at (x : Char) (t' u : List Char)
    (hx : isGoSpace x = false)
    (hts : ∀ c ∈ t', isGoNonSpace c = true) (htc : ':' ∉ t')
    (huc : ':' ∉ u.takeWhile isGoNonSpace) :
    findFrom tagToks false (x :: (t' ++ ':' :: u)) = some ([x :: t'], u) := by
  simp [findFrom, tagMatch_at x t' u hx hts htc huc]

theorem findAllAux_succ (toks : List Tok) (a : Bool) (f : Nat) (s : List Char)
    (caps : List (List Char)) (rest : List Char)
    (hf : findFrom toks a s = some (caps, rest)) (hlt : rest.length < s.length) :
    findAllAux toks a (f + 1) s = caps :: findAllAux toks a f rest := by
  simp [findAllAux, hf, hlt]

theorem findAllAux_of_none (toks : List Tok) (a : Bool) (f : Nat) (s : List Char)
    (hf : findFrom toks a s = none) : findAllAux toks a (f + 1) s = [] := by
  simp [findAllAux, hf]

theorem findAllAux_tag_nil (r : List Char) (hr : ':' ∉ r) (fuel : Nat) :
    findAllAux tagToks false fuel r = [] := by
  cases fuel with
  | zero => simp [findAllAux]
  | succ f => simp [findAllAux, findFrom_tag_none r hr]

theorem findFrom_cons_none (toks : List Tok) (a : Bool) (c : Char) (s' : List Char)
    (h : matchToks toks a (c :: s') = none) :
    findFrom toks a (c :: s') = findFrom toks a s' := by
  simp [findFrom, h]

theorem findFrom_cons_some (toks : List Tok) (a : Bool) (c : Char) (s' : List Char)
    {v : List (List Char) × List Char} (h : matchToks toks a (c :: s') = some v) :
    findFrom toks a (c :: s') = some v := by
  simp [findFrom, h]

theorem space_nonSpace : isGoNonSpace ' ' = false := by decide

theorem findAllAux_tag_tail (y : Char) (t2' r : List Char) (f : Nat)
    (hy : isGoSpace y = false)
    (hts : ∀ c ∈ t2', isGoNonSpace c = true) (htc : ':' ∉ t2') (hr : ':' ∉ r) :
    findAllAux tagToks false (f + 1) (' ' :: (y :: (t2' ++ ':' :: r))) = [[y :: t2']] := by
  have huc : ':' ∉ r.takeWhile isGoNonSpace :=
    fun hm => hr (mem_takeWhile_mem isGoNonSpace r ':' hm)
  have hfind : findFrom tagToks false (' ' :: (y :: (t2' ++ ':' :: r)))
      = some ([y :: t2'], r) := by
    have hsp : matchToks tagToks false (' ' :: (y :: (t2' ++ ':' :: r))) = none := by
      simp [tagToks, matchToks, space_nonSpace]
    rw [findFrom_cons_none _ _ _ _ hsp]
    exact findFrom_tag_at y t2' r hy hts htc huc
  have hlt : r.length < (' ' :: (y :: (t2' ++ ':' :: r))).length := by
    simp [List.length_append, List.length_cons]
    omega
  rw [findAllAux_succ _ _ _ _ _ _ hfind hlt, findAllAux_tag_nil r hr]

theorem findAll_tag_single (x : Char) (t' body : List Char)
    (hx : isGoSpace x = false)
    (hts : ∀ c ∈ t', isGoNonSpace c = true) (htc : ':' ∉ t') (hb : ':' ∉ body) :
    findAllSubmatch tagToks (x :: (t' ++ ':' :: (' ' :: body))) = [[x :: t']] := by
  have huc : ':' ∉ (' ' :: body).takeWhile isGoNonSpace := by
    rw [List.takeWhile_cons_of_neg (by simp [space_nonSpace])]
    simp
  have hfind := findFrom_tag_at x t' (' ' :: body) hx hts htc huc
  have hsb : ':' ∉ ' ' :: body := by
    intro hm
    rcases List.mem_cons.1 hm with hc | hc
    · cases hc
    · exact hb hc
  have hlt : (' ' :: body).length < (x :: (t' ++ ':' :: (' ' :: body))).length := by
    simp [List.length_append, List.length_cons]
    omega
  unfold findAllSubmatch
  rw [show (x :: (t' ++ ':' :: (' ' :: body))).length
      = (t' ++ ':' :: (' ' :: body)).length + 1 from by simp]
  rw [findAllAux_succ _ _ _ _ _ _ hfind hlt]
  rw [findAllAux_tag_nil (' ' :: body) hsb]

theorem findAll_tag_two (x : Char) (t1' : List Char) (y : Char) (t2' r : List Char)
    (hx : isGoSpace x = false)
    (ht1 : ∀ c ∈ t1', isGoNonSpace c = true) (ht1c : ':' ∉ t1')
    (hy : isGoSpace y = false)
    (ht2 : ∀ c ∈ t2', isGoNonSpace c = true) (ht2c : ':' ∉ t2')
    (hr : ':' ∉ r) :
    findAllSubmatch tagToks
      (x :: (t1' ++ ':' :: (' ' :: (y :: (t2' ++ ':' :: r)))))
      = [[x :: t1'], [y :: t2']] := by
  have huc : ':' ∉ (' ' :: (y :: (t2' ++ ':' :: r))).takeWhile isGoNonSpace := by
    rw [List.takeWhile_cons_of_neg (by simp [space_nonSpace])]
    simp
  have hfind := findFrom_tag_at x t1' (' ' :: (y :: (t2' ++ ':' :: r))) hx ht1 ht1c huc
  have hlt : (' ' :: (y :: (t2' ++ ':' :: r))).length
      < (x :: (t1' ++ ':' :: (' ' :: (y :: (t2' ++ ':' :: r))))).length := by
    simp [List.length_append, List.length_cons]
    omega
  have htail := findAllAux_tag_tail y t2' r
    ((t1' ++ ':' :: (' ' :: (y :: (t2' ++ ':' :: r)))).length) hy ht2 ht2c hr
  unfold findAllSubmatch
  rw [show (x :: (t1' ++ ':' :: (' ' :: (y :: (t2' ++ ':' :: r))))).length
      = (t1' ++ ':' :: (' ' :: (y :: (t2' ++ ':' :: r)))).length + 1 from by simp]
  rw [findAllAux_succ _ _ _ _ _ _ hfind hlt]
  rw [htail]

/-! Controlled unfolding equations for the matcher (the right-hand
sides leave the tail `ts` symbolic, so rewriting cannot cascade). -/

theorem matchToks_nil_false (s : List Char) : matchToks [] false s = some ([], s) := rfl

theorem matchToks_nil_true_nil : matchToks [] true [] = some ([], []) := rfl

theorem matchToks_nil_true_cons (x : Char) (s' : List Char) :
    matchToks [] true (x :: s') = none := rfl

theorem matchToks_lit_nil (c : Char) (ts : List Tok) (a : Bool) :
    matchToks (Tok.lit c :: ts) a [] = none := rfl

theorem matchToks_lit_cons (c : Char) (ts : List Tok) (a : Bool) (x : Char) (s' : List Char) :
    matchToks (Tok.lit c :: ts) a (x :: s') = if x = c then matchToks ts a s' else none := rfl

theorem matchToks_cls_nil (p : Char → Bool) (ts : List Tok) (a : Bool) :
    matchToks (Tok.cls p :: ts) a [] = none := rfl

theorem matchToks_cls_cons (p : Char → Bool) (ts : List Tok) (a : Bool) (x : Char) (s' : List Char) :
    matchToks (Tok.cls p :: ts) a (x :: s') = if p x then matchToks ts a s' else none := rfl

theorem matchToks_star (p : Char → Bool) (ts : List Tok) (a : Bool) (s : List Char) :
    matchToks (Tok.star p :: ts) a s
      = bkGreedy (fun _ rest => matchToks ts a rest)
          (s.takeWhile p).reverse (s.drop (s.takeWhile p).length) := rfl

theorem matchToks_gstar (p : Char → Bool) (ts : List Tok) (a : Bool) (s : List Char) :
    matchToks (Tok.gstar p :: ts) a s
      = bkGreedy (fun cap rest => (matchToks ts a rest).map fun pr => (cap :: pr.1, pr.2))
          (s.takeWhile p).reverse (s.drop (s.takeWhile p).length) := rfl

theorem matchToks_gplus_nil (p : Char → Bool) (ts : List Tok) (a : Bool) :
    matchToks (Tok.gplus p :: ts) a [] = none := rfl

theorem matchToks_gplus_cons (p : Char → Bool) (ts : List Tok) (a : Bool) (x : Char) (s' : List Char) :
    matchToks (Tok.gplus p :: ts) a (x :: s')
      = if p x then
          bkGreedy (fun cap rest => (matchToks ts a rest).map fun pr => ((x :: cap) :: pr.1, pr.2))
            (s'.takeWhile p).reverse (s'.drop (s'.takeWhile p).length)
        else none := rfl

/-! Lemmas about the body pattern `[^:]\s*([^:]*)$`: on a colon-free
non-empty input the match drops the first character and the following
whitespace; an input containing a colon (in particular anything to the
left of the last colon) cannot match, because the anchored tail only
accepts colon-free characters. -/

theorem mem_dropWhile_mem (p : Char → Bool) (l : List Char) (c : Char)
    (h : c ∈ l.dropWhile p) : c ∈ l := by
  induction l with
  | nil => simpa using h
  | cons x xs ih =>
    by_cases hx : p x
    · rw [List.dropWhile_cons_of_pos hx] at h
      exact List.mem_cons_of_mem x (ih h)
    · rwa [List.dropWhile_cons_of_neg hx] at h

theorem gstar_all (p : Char → Bool) (s : List Char) (hall : ∀ c ∈ s, p c = true) :
    matchToks [Tok.gstar p] true s = some ([s], []) := by
  rw [matchToks_gstar, takeWhile_eq_self_of_all p s hall, List.drop_length]
  apply bkGreedy_first
  simp [matchToks_nil_true_nil]

theorem matchStar_first (p : Char → Bool) (ts : List Tok) (a : Bool) (s : List Char)
    {v : List (List Char) × List Char}
    (h : matchToks ts a (s.dropWhile p) = some v) :
    matchToks (Tok.star p :: ts) a s = some v := by
  rw [matchToks_star]
  apply bkGreedy_first
  rwa [drop_takeWhile_len]

theorem bodyMatch_some (c : Char) (t : List Char) (h : ':' ∉ c :: t) :
    matchToks bodyToks true (c :: t) = some ([t.dropWhile isGoSpace], []) := by
  have hc : isNotColon c = true := by
    simp only [isNotColon, decide_eq_true_eq]
    intro hcc
    exact h (hcc ▸ List.mem_cons_self c t)
  have ht : ':' ∉ t := fun hm => h (List.mem_cons_of_mem c hm)
  rw [show bodyToks = Tok.cls isNotColon :: [Tok.star isGoSpace, Tok.gstar isNotColon] from rfl,
      matchToks_cls_cons, if_pos hc]
  apply matchStar_first
  apply gstar_all
  intro x hx
  have : x ∈ t := mem_dropWhile_mem isGoSpace t x hx
  simp only [isNotColon, decide_eq_true_eq]
  intro hxc
  exact ht (hxc ▸ this)

theorem bodyMatch_none (s : List Char) (h : ':' ∈ s) :
    matchToks bodyToks true s = none := by
  cases s with
  | nil => simp at h
  | cons c t =>
    by_cases hc : c = ':'
    · subst hc
      rw [show bodyToks = Tok.cls isNotColon :: [Tok.star isGoSpace, Tok.gstar isNotColon] from rfl,
          matchToks_cls_cons]
      simp [isNotColon]
    · have hct : ':' ∈ t := by
        rcases List.mem_cons.1 h with h1 | h1
        · exact absurd h1.symm hc
        · exact h1
      rw [show bodyToks = Tok.cls isNotColon :: [Tok.star isGoSpace, Tok.gstar isNotColon] from rfl,
          matchToks_cls_cons, if_pos (by simp [isNotColon, hc]), matchToks_star]
      apply bkGreedy_none_P _ (fun r => ':' ∈ r)
      · rw [drop_takeWhile_len]
        exact mem_dropWhile_of_mem isGoSpace t ':' hct (by decide)
      · intro c' r _ hr
        exact List.mem_cons_of_mem c' hr
      · intro cap r hr
        rw [matchToks_gstar]
        apply bkGreedy_none_P _ (fun r2 => r2 ≠ [])
        · rw [drop_takeWhile_len]
          exact dropWhile_ne_nil_of_mem isNotColon r ':' hr (by simp [isNotColon])
        · intro c' r2 _ _
          simp
        · intro cap2 r2 hr2
          cases r2 with
          | nil => exact absurd rfl hr2
          | cons z zs => simp [matchToks_nil_true_cons]

theorem cfs_no_colon (r : List Char) (hr : ':' ∉ r) : colonFreeSuffix r = r := by
  cases r with
  | nil => rfl
  | cons c t => simp [colonFreeSuffix, hr]

theorem cfs_of_append (pre r : List Char) (hr : ':' ∉ r) :
    colonFreeSuffix (pre ++ ':' :: r) = r := by
  induction pre with
  | nil =>
    have hm : ':' ∈ ':' :: r := List.mem_cons_self ':' r
    simp [colonFreeSuffix, hm, cfs_no_colon r hr]
  | cons x pre' ih =>
    have hm : ':' ∈ x :: (pre' ++ ':' :: r) := by simp
    simp [colonFreeSuffix, hm, ih]

theorem getLast?_mem_list (l : List Char) (a : Char) (h : l.getLast? = some a) : a ∈ l := by
  induction l with
  | nil => simp at h
  | cons c t ih =>
    cases t with
    | nil =>
      simp only [List.getLast?_singleton, Option.some.injEq] at h
      simp [h]
    | cons b u =>
      rw [List.getLast?_cons_cons] at h
      exact List.mem_cons_of_mem c (ih h)

theorem cfs_eq_nil_iff (d : List Char) :
    colonFreeSuffix d = [] ↔ d = [] ∨ d.getLast? = some ':' := by
  induction d with
  | nil => simp [colonFreeSuffix]
  | cons c t ih =>
    by_cases hm : ':' ∈ c :: t
    · simp only [colonFreeSuffix, if_pos hm]
      rw [ih]
      constructor
      · rintro (rfl | hlast)
        · right
          have hc : ':' = c := by simpa using hm
          subst hc
          simp
        · right
          cases t with
          | nil => simp at hlast
          | cons a b => rw [List.getLast?_cons_cons]; exact hlast
      · rintro (h | hlast)
        · cases h
        · cases t with
          | nil => left; rfl
          | cons a b =>
            right
            rwa [List.getLast?_cons_cons] at hlast
    · simp only [colonFreeSuffix, if_neg hm]
      constructor
      · intro h; cases h
      · rintro (h | hlast)
        · cases h
        · exact absurd (getLast?_mem_list _ _ hlast) hm

theorem findFrom_body_none (s : List Char) (h : colonFreeSuffix s = []) :
    findFrom bodyToks true s = none := by
  induction s with
  | nil => rfl
  | cons c t ih =>
    by_cases hm : ':' ∈ c :: t
    · have h2 : colonFreeSuffix t = [] := by
        simpa [colonFreeSuffix, hm] using h
      rw [findFrom_cons_none _ _ _ _ (bodyMatch_none _ hm)]
      exact ih h2
    · exfalso
      rw [cfs_no_colon _ hm] at h
      cases h

theorem findFrom_body_some (c : Char) (t : List Char) :
    ∀ s : List Char, colonFreeSuffix s = c :: t →
    findFrom bodyToks true s = some ([t.dropWhile isGoSpace], []) := by
  intro s
  induction s with
  | nil => intro h; simp [colonFreeSuffix] at h
  | cons c' t' ih =>
    intro h
    by_cases hm : ':' ∈ c' :: t'
    · have h2 : colonFreeSuffix t' = c :: t := by
        simpa [colonFreeSuffix, hm] using h
      rw [findFrom_cons_none _ _ _ _ (bodyMatch_none _ hm)]
      exact ih h2
    · have heq : c' :: t' = c :: t := by
        simpa [colonFreeSuffix, hm] using h
      injection heq with h1 h2
      subst h1
      subst h2
      have hsome := bodyMatch_some _ _ hm
      simp [findFrom, hsome]

/-! Lemmas about `mapAppend` and the bucket fold of
`createSpecificationMap`. -/

theorem mapAppend_mem_vals (m : List (List Char × List Specification)) (k : List Char)
    (v : Specification) (kv : List Char × List Specification) (sp : Specification)
    (hkv : kv ∈ mapAppend m k v) (hsp : sp ∈ kv.2) :
    (∃ kv' ∈ m, sp ∈ kv'.2) ∨ sp = v := by
  induction m generalizing kv with
  | nil =>
    simp only [mapAppend, List.mem_singleton] at hkv
    subst hkv
    simp at hsp
    simp [hsp]
  | cons e rest ih =>
    obtain ⟨k', vs⟩ := e
    by_cases hk : k' = k
    · simp only [mapAppend, if_pos hk] at hkv
      rcases List.mem_cons.1 hkv with h1 | h1
      · subst h1
        simp only at hsp
        rcases List.mem_append.1 hsp with h2 | h2
        · exact Or.inl ⟨(k', vs), List.mem_cons_self _ _, h2⟩
        · simp at h2
          simp [h2]
      · exact Or.inl ⟨kv, List.mem_cons_of_mem _ h1, hsp⟩
    · simp only [mapAppend, if_neg hk] at hkv
      rcases List.mem_cons.1 hkv with h1 | h1
      · subst h1
        exact Or.inl ⟨(k', vs), List.mem_cons_self _ _, hsp⟩
      · rcases ih kv h1 hsp with ⟨kv', hkv', hsp'⟩ | h2
        · exact Or.inl ⟨kv', List.mem_cons_of_mem _ hkv', hsp'⟩
        · exact Or.inr h2

theorem foldl_mapAppend_vals (ts : List (List (List Char)))
    (spec : Specification) :
    ∀ (m0 : List (List Char × List Specification))
      (kv : List Char × List Specification) (sp : Specification),
    kv ∈ ts.foldl (fun m' t => mapAppend m' (t.getD 0 []) spec) m0 → sp ∈ kv.2 →
    (∃ kv' ∈ m0, sp ∈ kv'.2) ∨ sp = spec := by
  induction ts with
  | nil =>
    intro m0 kv sp hkv hsp
    exact Or.inl ⟨kv, hkv, hsp⟩
  | cons t ts' ih =>
    intro m0 kv sp hkv hsp
    simp only [List.foldl_cons] at hkv
    rcases ih _ kv sp hkv hsp with ⟨kv', hkv', hsp'⟩ | h2
    · exact mapAppend_mem_vals m0 _ spec kv' sp hkv' hsp'
    · exact Or.inr h2

/-- C10 (confirmed): for every description whose last colon (if any) is
not its final character, the `Specification` body is computed once as
the suffix after the last colon (the whole description when there is no
colon) with its first character removed and the following whitespace
removed, and that single body is what is stored in every matched tag
bucket and in the untagged list. -/
theorem body_from_last_colon (d f : List Char) (hne : d ≠ [])
    (hlast : d.getLast? ≠ some ':') :
    bodyCapture d = some (((colonFreeSuffix d).drop 1).dropWhile isGoSpace) ∧
    ∃ m u, createSpecificationMap [⟨d, f⟩] = some (m, u) ∧
      (∀ kv ∈ m, ∀ sp ∈ kv.2,
        sp = ⟨((colonFreeSuffix d).drop 1).dropWhile isGoSpace, f⟩) ∧
      (∀ sp ∈ u, sp = ⟨((colonFreeSuffix d).drop 1).dropWhile isGoSpace, f⟩) := by
  have hcfs_ne : colonFreeSuffix d ≠ [] := by
    rw [Ne, cfs_eq_nil_iff]
    push_neg
    exact ⟨hne, hlast⟩
  obtain ⟨c, t, hcfs⟩ : ∃ c t, colonFreeSuffix d = c :: t := by
    cases hcf : colonFreeSuffix d with
    | nil => exact absurd hcf hcfs_ne
    | cons c t => exact ⟨c, t, rfl⟩
  have hff : findFirstSubmatch bodyToks true d = some [t.dropWhile isGoSpace] := by
    unfold findFirstSubmatch
    rw [findFrom_body_some c t d hcfs]
    rfl
  have hBeq : ((colonFreeSuffix d).drop 1).dropWhile isGoSpace = t.dropWhile isGoSpace := by
    rw [hcfs]
    rfl
  rw [hBeq]
  constructor
  · simp [bodyCapture, hff]
  · cases htags : findAllSubmatch tagToks d with
    | nil =>
      refine ⟨[], [⟨t.dropWhile isGoSpace, f⟩], ?_, ?_, ?_⟩
      · simp [createSpecificationMap, createSpecAux, hff, htags]
      · intro kv hkv
        simp at hkv
      · intro sp hsp
        simpa using hsp
    | cons t0 ts0 =>
      refine ⟨(t0 :: ts0).foldl
          (fun m' t' => mapAppend m' (t'.getD 0 []) ⟨t.dropWhile isGoSpace, f⟩) [],
        [], ?_, ?_, ?_⟩
      · simp [createSpecificationMap, createSpecAux, hff, htags]
      · intro kv hkv sp hsp
        rcases foldl_mapAppend_vals (t0 :: ts0) ⟨t.dropWhile isGoSpace, f⟩ [] kv sp hkv hsp with
          ⟨kv', hkv', _⟩ | h2
        · simp at hkv'
        · exact h2
      · intro sp hsp
        simp at hsp

/-- C1 (amended): the tag pattern is applied as a global scan, not a
prefix check: it detects one tag per non-overlapping occurrence of a
non-whitespace run immediately followed by a colon, anywhere in the
description.  A two-token description `T1: T2: rest` therefore yields
the two tags `T1` and `T2`, and the specification fans out into both
buckets. -/
theorem tag_scan_fanout (x : Char) (t1' : List Char) (y : Char) (t2' r f : List Char)
    (hx : isGoSpace x = false)
    (ht1 : ∀ c ∈ t1', isGoNonSpace c = true) (ht1c : ':' ∉ t1')
    (hy : isGoSpace y = false)
    (ht2 : ∀ c ∈ t2', isGoNonSpace c = true) (ht2c : ':' ∉ t2')
    (hr : ':' ∉ r) (hrne : r ≠ []) (hne12 : x :: t1' ≠ y :: t2') :
    detectedTags (x :: (t1' ++ ':' :: (' ' :: (y :: (t2' ++ ':' :: r)))))
      = [x :: t1', y :: t2'] ∧
    createSpecificationMap
        [⟨x :: (t1' ++ ':' :: (' ' :: (y :: (t2' ++ ':' :: r)))), f⟩]
      = some ([(x :: t1', [⟨(r.drop 1).dropWhile isGoSpace, f⟩]),
               (y :: t2', [⟨(r.drop 1).dropWhile isGoSpace, f⟩])], []) := by
  have htags := findAll_tag_two x t1' y t2' r hx ht1 ht1c hy ht2 ht2c hr
  obtain ⟨rc, rt, hrct⟩ : ∃ rc rt, r = rc :: rt := by
    cases r with
    | nil => exact absurd rfl hrne
    | cons rc rt => exact ⟨rc, rt, rfl⟩
  have hd : x :: (t1' ++ ':' :: (' ' :: (y :: (t2' ++ ':' :: r))))
      = (x :: t1' ++ ':' :: ' ' :: y :: t2') ++ ':' :: r := by
    simp
  have hcfs : colonFreeSuffix (x :: (t1' ++ ':' :: (' ' :: (y :: (t2' ++ ':' :: r)))))
      = rc :: rt := by
    rw [hd, cfs_of_append _ r hr, hrct]
  have hff : findFirstSubmatch bodyToks true
      (x :: (t1' ++ ':' :: (' ' :: (y :: (t2' ++ ':' :: r)))))
      = some [rt.dropWhile isGoSpace] := by
    unfold findFirstSubmatch
    rw [findFrom_body_some rc rt _ hcfs]
    rfl
  have hB : (r.drop 1).dropWhile isGoSpace = rt.dropWhile isGoSpace := by
    rw [hrct]
    rfl
  constructor
  · simp [detectedTags, htags]
  · rw [hB]
    simp only [createSpecificationMap, createSpecAux, hff, htags]
    simp [mapAppend, hne12, createSpecAux]

/-- C1 (counterexample to the claim as stated): the description
`"A: B: rest"` yields the two tags `"A"` and `"B"` and two buckets, not
the single tag `"A"`. -/
theorem tag_prefix_only_counterexample :
    detectedTags ("A: B: rest".toList) = ["A".toList, "B".toList] ∧
    detectedTags ("A: B: rest".toList) ≠ ["A".toList] ∧
    createSpecificationMap [⟨"A: B: rest".toList, "f.dart".toList⟩]
      = some ([("A".toList, [⟨"rest".toList, "f.dart".toList⟩]),
               ("B".toList, [⟨"rest".toList, "f.dart".toList⟩])], []) := by
  refine ⟨by decide, by decide, by decide⟩

/-- C1 (witness for the amended theorem at `"A: B: rest"`). -/
theorem tag_scan_fanout_witness :
    detectedTags ("A: B: rest".toList) = ["A".toList, "B".toList] ∧
    createSpecificationMap [⟨"A: B: rest".toList, "f.dart".toList⟩]
      = some ([("A".toList, [⟨"rest".toList, "f.dart".toList⟩]),
               ("B".toList, [⟨"rest".toList, "f.dart".toList⟩])], []) := by
  have h := tag_scan_fanout 'A' [] 'B' [] " rest".toList "f.dart".toList
    (by decide) (by intro c hc; simp at hc) (by simp)
    (by decide) (by intro c hc; simp at hc) (by simp)
    (by decide) (by decide) (by decide)
  simpa using h

/-- C10 (witness): the theorem applied to `"checkout: pay"`. -/
theorem body_from_last_colon_witness :
    ("checkout: pay".toList ≠ [] ∧ "checkout: pay".toList.getLast? ≠ some ':') ∧
    (bodyCapture "checkout: pay".toList
      = some (((colonFreeSuffix "checkout: pay".toList).drop 1).dropWhile isGoSpace) ∧
     ∃ m u, createSpecificationMap [⟨"checkout: pay".toList, "t.dart".toList⟩]
        = some (m, u) ∧
      (∀ kv ∈ m, ∀ sp ∈ kv.2,
        sp = ⟨((colonFreeSuffix "checkout: pay".toList).drop 1).dropWhile isGoSpace,
          "t.dart".toList⟩) ∧
      (∀ sp ∈ u,
        sp = ⟨((colonFreeSuffix "checkout: pay".toList).drop 1).dropWhile isGoSpace,
          "t.dart".toList⟩)) :=
  ⟨⟨by decide, by decide⟩,
   body_from_last_colon "checkout: pay".toList "t.dart".toList (by decide) (by decide)⟩

/-- C4 (amended): for a description of the form `TAG: body` — `TAG` a
non-empty run of non-whitespace, non-colon characters, `body`
colon-free — splitting yields the single tag `TAG`, and the stored
`Specification` body is the remainder after the colon-plus-space
separator with its leading whitespace removed; trailing whitespace of
`body` is preserved (the code does not trim on the right). -/
theorem tag_body_split (x : Char) (t' body f : List Char)
    (hx : isGoSpace x = false)
    (hts : ∀ c ∈ t', isGoNonSpace c = true) (htc : ':' ∉ t')
    (hb : ':' ∉ body) :
    detectedTags (x :: (t' ++ ':' :: (' ' :: body))) = [x :: t'] ∧
    createSpecificationMap [⟨x :: (t' ++ ':' :: (' ' :: body)), f⟩]
      = some ([(x :: t', [⟨body.dropWhile isGoSpace, f⟩])], []) := by
  have htags := findAll_tag_single x t' body hx hts htc hb
  have hd : x :: (t' ++ ':' :: (' ' :: body)) = (x :: t') ++ ':' :: (' ' :: body) := by
    simp
  have hsb : ':' ∉ ' ' :: body := by
    intro hm
    rcases List.mem_cons.1 hm with hc | hc
    · cases hc
    · exact hb hc
  have hcfs : colonFreeSuffix (x :: (t' ++ ':' :: (' ' :: body))) = ' ' :: body := by
    rw [hd, cfs_of_append _ _ hsb]
  have hff : findFirstSubmatch bodyToks true (x :: (t' ++ ':' :: (' ' :: body)))
      = some [body.dropWhile isGoSpace] := by
    unfold findFirstSubmatch
    rw [findFrom_body_some ' ' body _ hcfs]
    rfl
  refine ⟨by simp [detectedTags, htags], ?_⟩
  simp only [createSpecificationMap, createSpecAux, hff, htags]
  simp [mapAppend, createSpecAux]

/-- C4 (counterexample to the claim as stated): for
`"TAG: x "` the stored body is `"x "`, not the trimmed remainder
`"x"` — trailing whitespace is kept. -/
theorem tag_body_trailing_space_counterexample :
    createSpecificationMap [⟨"TAG: x ".toList, "f.dart".toList⟩]
      = some ([("TAG".toList, [⟨"x ".toList, "f.dart".toList⟩])], []) ∧
    "x ".toList ≠ "x".toList := by
  refine ⟨by decide, by decide⟩

/-- C4 (witness for the amended theorem at `"TAG: body"`). -/
theorem tag_body_split_witness :
    detectedTags ("TAG: body".toList) = ["TAG".toList] ∧
    createSpecificationMap [⟨"TAG: body".toList, "f.dart".toList⟩]
      = some ([("TAG".toList, [⟨"body".toList, "f.dart".toList⟩])], []) := by
  have h := tag_body_split 'T' "AG".toList "body".toList "f.dart".toList
    (by decide) (by decide) (by decide) (by decide)
  simpa using h

/-- C2 (amended): the body-extraction pattern `[^:]\s*([^:]*)$` has a
match on a non-empty description exactly when the description's final
character is not a colon.  Descriptions ending in a colon — which the
extractor can produce — have no match, so the unchecked indexing of the
submatch is a runtime panic there, not unreachable. -/
theorem body_match_iff_last_not_colon (d : List Char) (hne : d ≠ []) :
    (findFirstSubmatch bodyToks true d).isSome ↔ d.getLast? ≠ some ':' := by
  constructor
  · intro hsome hlast
    have hcfs : colonFreeSuffix d = [] := (cfs_eq_nil_iff d).2 (Or.inr hlast)
    rw [findFirstSubmatch, findFrom_body_none d hcfs] at hsome
    simp at hsome
  · intro hlast
    have hcfs_ne : colonFreeSuffix d ≠ [] := by
      rw [Ne, cfs_eq_nil_iff]
      push_neg
      exact ⟨hne, hlast⟩
    obtain ⟨c, t, hcfs⟩ : ∃ c t, colonFreeSuffix d = c :: t := by
      cases hcf : colonFreeSuffix d with
      | nil => exact absurd hcf hcfs_ne
      | cons c t => exact ⟨c, t, rfl⟩
    rw [findFirstSubmatch, findFrom_body_some c t d hcfs]
    simp

/-- C2 (counterexample to the claim as stated): the extractor yields
the non-empty description `":"` from `patrolTest(":")`, the body
pattern has no match on it, and `createSpecificationMap` hits the
panic branch (`none`). -/
theorem body_match_colon_counterexample :
    parseTestFilesContent "patrolTest(\":\")".toList "f.dart".toList
      = [⟨":".toList, "f.dart".toList⟩] ∧
    findFirstSubmatch bodyToks true ":".toList = none ∧
    createSpecificationMap [⟨":".toList, "f.dart".toList⟩] = none := by
  refine ⟨by decide, by decide, by decide⟩

/-- C2 (witness for the amended theorem at `"a"` and `"a:"`). -/
theorem body_match_iff_witness :
    ("a".toList ≠ [] ∧
      ((findFirstSubmatch bodyToks true "a".toList).isSome
        ↔ "a".toList.getLast? ≠ some ':')) ∧
    ("a:".toList ≠ [] ∧
      ((findFirstSubmatch bodyToks true "a:".toList).isSome
        ↔ "a:".toList.getLast? ≠ some ':')) :=
  ⟨⟨by decide, body_match_iff_last_not_colon "a".toList (by decide)⟩,
   ⟨by decide, body_match_iff_last_not_colon "a:".toList (by decide)⟩⟩

/-! Character-class facts used by the requirements-pattern lemmas. -/

theorem space_cases (c : Char) (h : isGoSpace c = true) :
    c = ' ' ∨ c = '\t' ∨ c = '\n' ∨ c = Char.ofNat 12 ∨ c = '\r' := by
  simp only [isGoSpace, Bool.or_eq_true, decide_eq_true_eq] at h
  tauto

theorem word_not_space (c : Char) (h : isWordChar c = true) : isGoSpace c = false := by
  cases hsp : isGoSpace c with
  | false => rfl
  | true =>
    exfalso
    rcases space_cases c hsp with rfl | rfl | rfl | rfl | rfl <;> simp [isWordChar] at h

theorem unispace_cases (c : Char) (h : isUniSpace c = true) :
    c = ' ' ∨ c = '\t' ∨ c = '\n' ∨ c = Char.ofNat 11 ∨ c = Char.ofNat 12 ∨
    c = '\r' ∨ c = Char.ofNat 0x85 ∨ c = Char.ofNat 0xA0 := by
  simp only [isUniSpace, Bool.or_eq_true, decide_eq_true_eq] at h
  tauto

theorem word_not_unispace (c : Char) (h : isWordChar c = true) : isUniSpace c = false := by
  cases hu : isUniSpace c with
  | false => rfl
  | true =>
    exfalso
    rcases unispace_cases c hu with rfl | rfl | rfl | rfl | rfl | rfl | rfl | rfl <;>
      revert h <;> decide

theorem space_unispace (c : Char) (h : isGoSpace c = true) : isUniSpace c = true := by
  rcases space_cases c h with rfl | rfl | rfl | rfl | rfl <;> decide

theorem space_sw (c : Char) (h : isGoSpace c = true) : isSpaceOrWord c = true := by
  simp [isSpaceOrWord, h]

theorem word_sw (c : Char) (h : isWordChar c = true) : isSpaceOrWord c = true := by
  simp [isSpaceOrWord, h]

/-! Lemmas about `goTrimSpace`. -/

theorem trim_of_no_unispace (l : List Char) (h : ∀ c ∈ l, isUniSpace c = false) :
    goTrimSpace l = l := by
  have h1 : l.dropWhile isUniSpace = l :=
    dropWhile_eq_self_of_head _ _ (fun c r hl =>
      h c (by rw [hl]; exact List.mem_cons_self c r))
  have h2 : l.reverse.dropWhile isUniSpace = l.reverse :=
    dropWhile_eq_self_of_head _ _ (fun c r hl =>
      h c (by
        have hm : c ∈ l.reverse := by rw [hl]; exact List.mem_cons_self c r
        simpa using hm))
  unfold goTrimSpace
  rw [h1, h2, List.reverse_reverse]

theorem trim_word_head_append (h : Char) (txt' s4 : List Char)
    (hh : isWordChar h = true) (hs4 : ∀ c ∈ s4, isUniSpace c = true) :
    goTrimSpace ((h :: txt') ++ s4) = goTrimSpace (h :: txt') := by
  have hhu : isUniSpace h = false := word_not_unispace h hh
  have e1 : ((h :: txt') ++ s4).dropWhile isUniSpace = (h :: txt') ++ s4 := by
    rw [List.cons_append]
    exact List.dropWhile_cons_of_neg (by simp [hhu])
  have e2 : (h :: txt').dropWhile isUniSpace = h :: txt' :=
    List.dropWhile_cons_of_neg (by simp [hhu])
  have e3 : ((h :: txt') ++ s4).reverse.dropWhile isUniSpace
      = (h :: txt').reverse.dropWhile isUniSpace := by
    rw [List.reverse_append]
    exact dropWhile_all_append _ _ _ (fun c hc => hs4 c (by simpa using hc))
  unfold goTrimSpace
  rw [e1, e2, e3]

/-! Lemmas building up the requirements row pattern
`\|\s*(\w*)\s*\|\s*([\s\w]+)\s*\|` on a well-formed row.  Every greedy
quantifier succeeds at its maximal split on such a row, so the match is
a chain of first-attempt successes. -/

theorem reqL1 (s4 R : List Char) (hs4 : ∀ c ∈ s4, isGoSpace c = true) :
    matchToks [Tok.star isGoSpace, Tok.lit '|'] false (s4 ++ '|' :: R) = some ([], R) := by
  apply matchStar_first
  rw [dropWhile_all_append _ _ _ hs4, List.dropWhile_cons_of_neg (by decide),
      matchToks_lit_cons, if_pos rfl, matchToks_nil_false]

theorem reqL2 (cs R : List Char) (hne : cs ≠ []) (hall : ∀ c ∈ cs, isSpaceOrWord c = true) :
    matchToks [Tok.gplus isSpaceOrWord, Tok.star isGoSpace, Tok.lit '|'] false
      (cs ++ '|' :: R) = some ([cs], R) := by
  obtain ⟨x, cs', rfl⟩ : ∃ x cs', cs = x :: cs' := by
    cases cs with
    | nil => exact absurd rfl hne
    | cons x cs' => exact ⟨x, cs', rfl⟩
  rw [List.cons_append, matchToks_gplus_cons,
      if_pos (hall x (List.mem_cons_self x cs'))]
  have hm : (cs' ++ '|' :: R).takeWhile isSpaceOrWord = cs' := by
    rw [takeWhile_all_append _ _ _ (fun c hc => hall c (List.mem_cons_of_mem x hc)),
        List.takeWhile_cons_of_neg (by decide)]
    simp
  rw [hm, drop_len_append]
  apply bkGreedy_first
  rw [List.reverse_reverse]
  have h1 := reqL1 [] R (by simp)
  simp only [List.nil_append] at h1
  simp [h1]

theorem reqL3 (s3 : List Char) (h : Char) (txt' s4 R : List Char)
    (hs3 : ∀ c ∈ s3, isGoSpace c = true) (hh : isWordChar h = true)
    (htxt : ∀ c ∈ txt', isSpaceOrWord c = true)
    (hs4 : ∀ c ∈ s4, isGoSpace c = true) :
    matchToks [Tok.star isGoSpace, Tok.gplus isSpaceOrWord, Tok.star isGoSpace, Tok.lit '|']
      false (s3 ++ ((h :: txt') ++ (s4 ++ '|' :: R)))
      = some ([(h :: txt') ++ s4], R) := by
  apply matchStar_first
  rw [dropWhile_all_append _ _ _ hs3, List.cons_append,
      List.dropWhile_cons_of_neg (by simp [word_not_space h hh])]
  have h2 := reqL2 ((h :: txt') ++ s4) R (by simp)
    (by
      intro c hc
      rcases List.mem_append.1 hc with hc | hc
      · rcases List.mem_cons.1 hc with hc | hc
        · exact hc ▸ word_sw h hh
        · exact htxt c hc
      · exact space_sw c (hs4 c hc))
  rw [List.append_assoc, List.cons_append] at h2
  exact h2

theorem reqL5 (s2 s3 : List Char) (h : Char) (txt' s4 R : List Char)
    (hs2 : ∀ c ∈ s2, isGoSpace c = true)
    (hs3 : ∀ c ∈ s3, isGoSpace c = true) (hh : isWordChar h = true)
    (htxt : ∀ c ∈ txt', isSpaceOrWord c = true)
    (hs4 : ∀ c ∈ s4, isGoSpace c = true) :
    matchToks [Tok.star isGoSpace, Tok.lit '|', Tok.star isGoSpace, Tok.gplus isSpaceOrWord,
        Tok.star isGoSpace, Tok.lit '|'] false
      (s2 ++ '|' :: (s3 ++ ((h :: txt') ++ (s4 ++ '|' :: R))))
      = some ([(h :: txt') ++ s4], R) := by
  apply matchStar_first
  rw [dropWhile_all_append _ _ _ hs2, List.dropWhile_cons_of_neg (by decide),
      matchToks_lit_cons, if_pos rfl]
  exact reqL3 s3 h txt' s4 R hs3 hh htxt hs4

theorem reqL6 (tx : Char) (tok' s2 s3 : List Char) (h : Char) (txt' s4 R : List Char)
    (htok : ∀ c ∈ tx :: tok', isWordChar c = true)
    (hs2 : ∀ c ∈ s2, isGoSpace c = true)
    (hs3 : ∀ c ∈ s3, isGoSpace c = true) (hh : isWordChar h = true)
    (htxt : ∀ c ∈ txt', isSpaceOrWord c = true)
    (hs4 : ∀ c ∈ s4, isGoSpace c = true) :
    matchToks [Tok.gstar isWordChar, Tok.star isGoSpace, Tok.lit '|', Tok.star isGoSpace,
        Tok.gplus isSpaceOrWord, Tok.star isGoSpace, Tok.lit '|'] false
      ((tx :: tok') ++ (s2 ++ '|' :: (s3 ++ ((h :: txt') ++ (s4 ++ '|' :: R)))))
      = some ([tx :: tok', (h :: txt') ++ s4], R) := by
  rw [matchToks_gstar]
  have hm : ((tx :: tok') ++ (s2 ++ '|' :: (s3 ++ ((h :: txt') ++ (s4 ++ '|' :: R))))).takeWhile
      isWordChar = tx :: tok' := by
    rw [takeWhile_all_append _ _ _ htok]
    cases hs2c : s2 with
    | nil =>
      simp [List.takeWhile_cons_of_neg (show ¬ isWordChar '|' = true by decide)]
    | cons c s2' =>
      have hcsp : isGoSpace c = true := by
        apply hs2
        rw [hs2c]
        exact List.mem_cons_self c s2'
      have hcw : ¬ isWordChar c = true := by
        cases hw : isWordChar c with
        | false => simp
        | true => rw [word_not_space c hw] at hcsp; cases hcsp
      simp [List.takeWhile_cons_of_neg hcw]
  rw [hm, drop_len_append]
  apply bkGreedy_first
  rw [List.reverse_reverse]
  have h5 := reqL5 s2 s3 h txt' s4 R hs2 hs3 hh htxt hs4
  simp only [List.cons_append] at h5
  simp [h5]

theorem reqMatch_row (s1 : List Char) (tx : Char) (tok' s2 s3 : List Char) (h : Char)
    (txt' s4 R : List Char)
    (hs1 : ∀ c ∈ s1, isGoSpace c = true)
    (htok : ∀ c ∈ tx :: tok', isWordChar c = true)
    (hs2 : ∀ c ∈ s2, isGoSpace c = true)
    (hs3 : ∀ c ∈ s3, isGoSpace c = true) (hh : isWordChar h = true)
    (htxt : ∀ c ∈ txt', isSpaceOrWord c = true)
    (hs4 : ∀ c ∈ s4, isGoSpace c = true) :
    matchToks reqToks false
      ('|' :: (s1 ++ ((tx :: tok') ++ (s2 ++ '|' :: (s3 ++ ((h :: txt') ++ (s4 ++ '|' :: R)))))))
      = some ([tx :: tok', (h :: txt') ++ s4], R) := by
  rw [show reqToks = Tok.lit '|' :: [Tok.star isGoSpace, Tok.gstar isWordChar,
      Tok.star isGoSpace, Tok.lit '|', Tok.star isGoSpace, Tok.gplus isSpaceOrWord,
      Tok.star isGoSpace, Tok.lit '|'] from rfl,
    matchToks_lit_cons, if_pos rfl]
  rw [show [Tok.star isGoSpace, Tok.gstar isWordChar, Tok.star isGoSpace, Tok.lit '|',
      Tok.star isGoSpace, Tok.gplus isSpaceOrWord, Tok.star isGoSpace, Tok.lit '|']
      = Tok.star isGoSpace :: [Tok.gstar isWordChar, Tok.star isGoSpace, Tok.lit '|',
      Tok.star isGoSpace, Tok.gplus isSpaceOrWord, Tok.star isGoSpace, Tok.lit '|'] from rfl]
  apply matchStar_first
  rw [dropWhile_all_append _ _ _ hs1, List.cons_append,
      List.dropWhile_cons_of_neg
        (by simp [word_not_space tx (htok tx (List.mem_cons_self tx tok'))])]
  have h6 := reqL6 tx tok' s2 s3 h txt' s4 R htok hs2 hs3 hh htxt hs4
  rw [List.cons_append] at h6
  exact h6

/-- C6 (amended): a requirement-file line of the form
`| token | free-text |` — where `token` is a non-empty run of WORD
characters (`[0-9A-Za-z_]`, not arbitrary non-whitespace: the pattern
is `(\w*)`), and `free-text` is a run of word characters and internal
whitespace starting with a word character — emits one `Requirement`
with the token as tag and the trimmed free-text as description
(provided neither raw capture is a header label, see C7); any line on
which the row pattern finds no match is silently skipped. -/
theorem requirements_row_emit :
    (∀ (s1 : List Char) (tx : Char) (tok' s2 s3 : List Char) (h : Char)
        (txt' s4 R : List Char),
      (∀ c ∈ s1, isGoSpace c = true) → (∀ c ∈ tx :: tok', isWordChar c = true) →
      (∀ c ∈ s2, isGoSpace c = true) → (∀ c ∈ s3, isGoSpace c = true) →
      isWordChar h = true → (∀ c ∈ txt', isSpaceOrWord c = true) →
      (∀ c ∈ s4, isGoSpace c = true) →
      tx :: tok' ≠ "Tag".toList → tx :: tok' ≠ "tag".toList →
      (h :: txt') ++ s4 ≠ "Description".toList →
      (h :: txt') ++ s4 ≠ "description".toList →
      lineRequirements
          ('|' :: (s1 ++ ((tx :: tok') ++
            (s2 ++ '|' :: (s3 ++ ((h :: txt') ++ (s4 ++ '|' :: R)))))))
        = [⟨tx :: tok', goTrimSpace (h :: txt')⟩]) ∧
    (∀ line, findFirstSubmatch reqToks false line = none → lineRequirements line = []) := by
  constructor
  · intro s1 tx tok' s2 s3 h txt' s4 R hs1 htok hs2 hs3 hh htxt hs4 hT1 hT2 hD1 hD2
    have hmatch := reqMatch_row s1 tx tok' s2 s3 h txt' s4 R hs1 htok hs2 hs3 hh htxt hs4
    have hfind : findFirstSubmatch reqToks false
        ('|' :: (s1 ++ ((tx :: tok') ++
          (s2 ++ '|' :: (s3 ++ ((h :: txt') ++ (s4 ++ '|' :: R)))))))
        = some [tx :: tok', (h :: txt') ++ s4] := by
      unfold findFirstSubmatch
      rw [show findFrom reqToks false
          ('|' :: (s1 ++ ((tx :: tok') ++
            (s2 ++ '|' :: (s3 ++ ((h :: txt') ++ (s4 ++ '|' :: R)))))))
          = some ([tx :: tok', (h :: txt') ++ s4], R) from by
        simp only [List.cons_append] at hmatch
        simp [findFrom, hmatch]]
      rfl
    unfold lineRequirements
    rw [hfind]
    simp only [List.getD_cons_zero, List.getD_cons_succ]
    rw [if_neg (by
      intro hor
      rcases hor with hor | hor
      · exact hT1 hor
      · exact hT2 hor)]
    rw [if_neg (by
      intro hor
      rcases hor with hor | hor
      · exact hD1 hor
      · exact hD2 hor)]
    have htrim1 : goTrimSpace (tx :: tok') = tx :: tok' :=
      trim_of_no_unispace _ (fun c hc => word_not_unispace c (htok c hc))
    have htrim2 : goTrimSpace ((h :: txt') ++ s4) = goTrimSpace (h :: txt') :=
      trim_word_head_append h txt' s4 hh (fun c hc => space_unispace c (hs4 c hc))
    rw [htrim1, htrim2]
  · intro line hnone
    unfold lineRequirements
    rw [hnone]

/-- C6 (counterexample to the claim as stated): a row whose first
column `a-b` is a contiguous non-whitespace run but not a run of word
characters is NOT matched — the code emits no `Requirement` for
`"| a-b | desc |"`, while the claim requires one with tag `"a-b"`. -/
theorem requirements_nonword_token_counterexample :
    lineRequirements "| a-b | desc |".toList = [] ∧
    parseRequirementsContent "| a-b | desc |".toList = [] ∧
    ([] : List Requirement) ≠ [⟨"a-b".toList, "desc".toList⟩] := by
  refine ⟨by decide, by decide, by decide⟩

/-- C6 (witness for the amended theorem on the row `| A1 | b c |` and
on a non-matching line). -/
theorem requirements_row_emit_witness :
    lineRequirements "| A1 | b c |".toList = [⟨"A1".toList, "b c".toList⟩] ∧
    lineRequirements "no table row".toList = [] := by
  constructor
  · have h := requirements_row_emit.1 [' '] 'A' ['1'] [' '] [' '] 'b' [' ', 'c'] [' '] []
      (by decide) (by decide) (by decide) (by decide) (by decide) (by decide)
      (by decide) (by decide) (by decide) (by decide) (by decide)
    have h2 : lineRequirements ("| A1 | b c |".toList)
        = [⟨"A1".toList, goTrimSpace ('b' :: [' ', 'c'])⟩] := by
      simpa using h
    rw [h2]
    decide
  · exact requirements_row_emit.2 "no table row".toList (by decide)

/-- C7 (amended): a matched requirement-table row is skipped exactly
when the RAW first capture equals `"Tag"` or `"tag"`, or the RAW second
capture equals `"Description"` or `"description"` — an exact,
case-sensitive comparison of the untrimmed captures, not a
case-insensitive comparison after trimming; every other matched row
emits a `Requirement` with both captures trimmed. -/
theorem requirements_header_skip_iff (line g1 g2 : List Char)
    (hm : findFirstSubmatch reqToks false line = some [g1, g2]) :
    (lineRequirements line = [] ↔
      (g1 = "Tag".toList ∨ g1 = "tag".toList ∨
       g2 = "Description".toList ∨ g2 = "description".toList)) ∧
    (¬(g1 = "Tag".toList ∨ g1 = "tag".toList ∨
       g2 = "Description".toList ∨ g2 = "description".toList) →
      lineRequirements line = [⟨goTrimSpace g1, goTrimSpace g2⟩]) := by
  unfold lineRequirements
  rw [hm]
  simp only [List.getD_cons_zero, List.getD_cons_succ]
  by_cases h1 : g1 = "Tag".toList ∨ g1 = "tag".toList
  · rw [if_pos h1]
    constructor
    · constructor
      · intro _
        tauto
      · intro _
        rfl
    · intro hnot
      exact absurd (by tauto) hnot
  · rw [if_neg h1]
    by_cases h2 : g2 = "Description".toList ∨ g2 = "description".toList
    · rw [if_pos h2]
      constructor
      · constructor
        · intro _
          tauto
        · intro _
          rfl
      · intro hnot
        exact absurd (by tauto) hnot
    · rw [if_neg h2]
      constructor
      · constructor
        · intro hempty
          cases hempty
        · intro hor
          exact absurd hor (by tauto)
      · intro _
        rfl

/-- C7 (counterexample to the claim as stated): the row
`| TAG | stuff |` has first column `TAG`, a case-insensitive match of
the header label `tag`, so the claim says it is skipped; the code
compares case-sensitively against `"Tag"`/`"tag"` only and emits a
`Requirement` for it. -/
theorem requirements_header_case_counterexample :
    lineRequirements "| TAG | stuff |".toList = [⟨"TAG".toList, "stuff".toList⟩] ∧
    lineRequirements "| TAG | stuff |".toList ≠ [] := by
  refine ⟨by decide, by decide⟩

/-- C7 (witness for the amended theorem at the matched header row
`| Tag | x |`). -/
theorem requirements_header_skip_iff_witness :
    (lineRequirements "| Tag | x |".toList = [] ↔
      ("Tag".toList = "Tag".toList ∨ "Tag".toList = "tag".toList ∨
       "x ".toList = "Description".toList ∨ "x ".toList = "description".toList)) ∧
    (¬("Tag".toList = "Tag".toList ∨ "Tag".toList = "tag".toList ∨
       "x ".toList = "Description".toList ∨ "x ".toList = "description".toList) →
      lineRequirements "| Tag | x |".toList
        = [⟨goTrimSpace "Tag".toList, goTrimSpace "x ".toList⟩]) :=
  requirements_header_skip_iff "| Tag | x |".toList "Tag".toList "x ".toList (by decide)

/-! Lemmas about the extraction pattern `patrolTest\(\s*['"](.+)['"]`. -/

theorem quote_not_space (c : Char) (h : isQuote c = true) : isGoSpace c = false := by
  rcases (by simpa [isQuote] using h : c = '\'' ∨ c = '"') with rfl | rfl <;> decide

theorem quote_dot (c : Char) (h : isQuote c = true) : isDot c = true := by
  rcases (by simpa [isQuote] using h : c = '\'' ∨ c = '"') with rfl | rfl <;> decide

theorem lits_chain (cs : List Char) (ts : List Tok) (a : Bool) (X : List Char) :
    matchToks (cs.map Tok.lit ++ ts) a (cs ++ X) = matchToks ts a X := by
  induction cs with
  | nil => rfl
  | cons c cs' ih =>
    rw [List.map_cons, List.cons_append, List.cons_append, matchToks_lit_cons, if_pos rfl, ih]

theorem patrolMatch_at (ws : List Char) (q1 mx : Char) (mid' : List Char) (q2 : Char)
    (post : List Char)
    (hws : ∀ c ∈ ws, isGoSpace c = true) (hq1 : isQuote q1 = true)
    (hq2 : isQuote q2 = true)
    (hmidd : ∀ c ∈ mx :: mid', isDot c = true)
    (hmidq : ∀ c ∈ mx :: mid', isQuote c = false)
    (hpost : ∀ c ∈ post, isQuote c = false) :
    matchToks patrolToks false
      ("patrolTest(".toList ++ (ws ++ q1 :: ((mx :: mid') ++ q2 :: post)))
      = some ([mx :: mid'], post) := by
  rw [show patrolToks = "patrolTest(".toList.map Tok.lit ++
      [Tok.star isGoSpace, Tok.cls isQuote, Tok.gplus isDot, Tok.cls isQuote] from rfl,
    lits_chain]
  apply matchStar_first
  rw [dropWhile_all_append _ _ _ hws,
      List.dropWhile_cons_of_neg (by simp [quote_not_space q1 hq1]),
      matchToks_cls_cons, if_pos hq1, List.cons_append, matchToks_gplus_cons,
      if_pos (hmidd mx (List.mem_cons_self mx mid'))]
  have hm : (mid' ++ q2 :: post).takeWhile isDot
      = mid' ++ q2 :: post.takeWhile isDot := by
    rw [takeWhile_all_append _ _ _ (fun c hc => hmidd c (List.mem_cons_of_mem mx hc)),
        List.takeWhile_cons_of_pos (quote_dot q2 hq2)]
  have hsplit : mid' ++ q2 :: post
      = (mid' ++ q2 :: post.takeWhile isDot) ++ post.dropWhile isDot := by
    simp [List.takeWhile_append_dropWhile]
  have hdrop : (mid' ++ q2 :: post).drop (mid' ++ q2 :: post.takeWhile isDot).length
      = post.dropWhile isDot := by
    conv_lhs => rw [hsplit]
    exact drop_len_append _ _
  have hrev : (mid' ++ q2 :: post.takeWhile isDot).reverse
      = (post.takeWhile isDot).reverse ++ q2 :: mid'.reverse := by
    simp
  rw [hm, hdrop, hrev]
  apply bkGreedy_found _ isQuote
  · intro cap r hr
    cases r with
    | nil => simp [matchToks_cls_nil]
    | cons c r' =>
      rw [matchToks_cls_cons, if_neg (by simp [hr c r' rfl])]
      rfl
  · intro c hc
    exact hpost c (mem_takeWhile_mem isDot post c (by simpa using hc))
  · intro c r' h
    have hd : isDot c = false := by
      have h2 := List.head?_dropWhile_not isDot post
      rw [h] at h2
      simpa using h2
    have : c = '\n' := by
      by_contra hne
      simp [isDot, hne] at hd
    subst this
    decide
  · rw [List.reverse_reverse, List.reverse_reverse, List.takeWhile_append_dropWhile,
        matchToks_cls_cons, if_pos hq2, matchToks_nil_false]
    rfl

theorem matchToks_cls_some (p : Char → Bool) (ts : List Tok) (a : Bool) (r : List Char)
    {v : List (List Char) × List Char} (h : matchToks (Tok.cls p :: ts) a r = some v) :
    ∃ c r', r = c :: r' ∧ p c = true := by
  cases r with
  | nil => rw [matchToks_cls_nil] at h; cases h
  | cons c r' =>
    rw [matchToks_cls_cons] at h
    by_cases hp : p c = true
    · exact ⟨c, r', rfl, hp⟩
    · rw [if_neg (by simp [hp])] at h
      cases h

theorem lits_some (cs : List Char) (ts : List Tok) (a : Bool) (u : List Char)
    {v : List (List Char) × List Char}
    (h : matchToks (cs.map Tok.lit ++ ts) a u = some v) :
    ∃ u', u = cs ++ u' ∧ matchToks ts a u' = some v := by
  induction cs generalizing u with
  | nil => exact ⟨u, rfl, h⟩
  | cons c cs' ih =>
    cases u with
    | nil => rw [List.map_cons, List.cons_append, matchToks_lit_nil] at h; cases h
    | cons x u0 =>
      rw [List.map_cons, List.cons_append, matchToks_lit_cons] at h
      by_cases hx : x = c
      · rw [if_pos hx] at h
        obtain ⟨u', hu, hm⟩ := ih u0 h
        exact ⟨u', by rw [hu, hx, List.cons_append], hm⟩
      · rw [if_neg hx] at h
        cases h

theorem bkGreedy_some {α : Type} (k : List Char → List Char → Option α)
    (rt rest : List Char) {v : α} (h : bkGreedy k rt rest = some v) :
    ∃ cap r, k cap r = some v ∧ ∀ x ∈ r, x ∈ rt ∨ x ∈ rest := by
  induction rt generalizing rest with
  | nil =>
    refine ⟨[], rest, ?_, fun x hx => Or.inr hx⟩
    simp only [bkGreedy] at h
    cases hk : k [].reverse rest with
    | none => rw [hk] at h; cases h
    | some w => rw [hk] at h; cases h; simpa using hk
  | cons c rt' ih =>
    simp only [bkGreedy] at h
    cases hk : k (c :: rt').reverse rest with
    | some w =>
      rw [hk] at h
      cases h
      exact ⟨(c :: rt').reverse, rest, hk, fun x hx => Or.inr hx⟩
    | none =>
      rw [hk] at h
      obtain ⟨cap, r, hkr, hmem⟩ := ih (c :: rest) h
      refine ⟨cap, r, hkr, fun x hx => ?_⟩
      rcases hmem x hx with h1 | h1
      · exact Or.inl (List.mem_cons_of_mem c h1)
      · rcases List.mem_cons.1 h1 with h2 | h2
        · exact Or.inl (h2 ▸ List.mem_cons_self c rt')
        · exact Or.inr h2

theorem patrol_needs_quote (s : List Char) (h : ∀ c ∈ s, isQuote c = false) :
    matchToks patrolToks false s = none := by
  cases hm : matchToks patrolToks false s with
  | none => rfl
  | some v =>
    exfalso
    rw [show patrolToks = "patrolTest(".toList.map Tok.lit ++
        [Tok.star isGoSpace, Tok.cls isQuote, Tok.gplus isDot, Tok.cls isQuote] from rfl] at hm
    obtain ⟨u', hu, hm2⟩ := lits_some _ _ _ _ hm
    have hu'mem : ∀ c ∈ u', c ∈ s := fun c hc => by
      rw [hu]; exact List.mem_append_right _ hc
    rw [matchToks_star] at hm2
    obtain ⟨cap, r, hkr, hrmem⟩ := bkGreedy_some _ _ _ hm2
    obtain ⟨c, r', hr, hq⟩ := matchToks_cls_some _ _ _ _ hkr
    have hcu : c ∈ u' := by
      rcases hrmem c (by rw [hr]; exact List.mem_cons_self c r') with h1 | h1
      · exact mem_takeWhile_mem isGoSpace u' c (by simpa using h1)
      · exact List.mem_of_mem_drop h1
    rw [h c (hu'mem c hcu)] at hq
    cases hq

theorem findFrom_patrol_none (s : List Char) (h : ∀ c ∈ s, isQuote c = false) :
    findFrom patrolToks false s = none := by
  induction s with
  | nil => simpa [findFrom] using patrol_needs_quote [] h
  | cons c s' ih =>
    rw [findFrom_cons_none _ _ _ _ (patrol_needs_quote (c :: s') h)]
    exact ih fun x hx => h x (List.mem_cons_of_mem c hx)

/-- C5 (amended): the extractor yields one `TestCase` per
non-overlapping match of `patrolTest(`, optional whitespace, an
opening quote (single or double), one-or-more non-newline characters
captured greedily, and a closing quote character that may be of EITHER
kind — not necessarily the one matching the opener.  The capture
extends greedily to the last quote character that still allows a
match, not to the quote that matches the opening one. -/
theorem patrol_extraction (ws : List Char) (q1 mx : Char) (mid' : List Char) (q2 : Char)
    (post f : List Char)
    (hws : ∀ c ∈ ws, isGoSpace c = true) (hq1 : isQuote q1 = true)
    (hq2 : isQuote q2 = true)
    (hmidd : ∀ c ∈ mx :: mid', isDot c = true)
    (hmidq : ∀ c ∈ mx :: mid', isQuote c = false)
    (hpost : ∀ c ∈ post, isQuote c = false) :
    parseTestFilesContent
      ("patrolTest(".toList ++ (ws ++ q1 :: ((mx :: mid') ++ q2 :: post))) f
      = [⟨mx :: mid', f⟩] := by
  have hmatch := patrolMatch_at ws q1 mx mid' q2 post hws hq1 hq2 hmidd hmidq hpost
  have hfind : findFrom patrolToks false
      ("patrolTest(".toList ++ (ws ++ q1 :: ((mx :: mid') ++ q2 :: post)))
      = some ([mx :: mid'], post) := by
    rw [show "patrolTest(".toList = 'p' :: "atrolTest(".toList from rfl,
        List.cons_append] at hmatch ⊢
    exact findFrom_cons_some _ _ _ _ hmatch
  have hlt : post.length
      < ("patrolTest(".toList ++ (ws ++ q1 :: ((mx :: mid') ++ q2 :: post))).length := by
    simp [List.length_append, List.length_cons]
    omega
  have hge : 2 ≤ ("patrolTest(".toList ++ (ws ++ q1 :: ((mx :: mid') ++ q2 :: post))).length := by
    simp [List.length_append, List.length_cons]
  obtain ⟨N, hN⟩ : ∃ N,
      ("patrolTest(".toList ++ (ws ++ q1 :: ((mx :: mid') ++ q2 :: post))).length = N + 2 :=
    ⟨("patrolTest(".toList ++ (ws ++ q1 :: ((mx :: mid') ++ q2 :: post))).length - 2,
      by omega⟩
  unfold parseTestFilesContent findAllSubmatch
  rw [hN, show N + 2 + 1 = (N + 2) + 1 from rfl,
      findAllAux_succ _ _ _ _ _ _ hfind hlt,
      show N + 2 = (N + 1) + 1 from rfl,
      findAllAux_of_none _ _ _ _ (findFrom_patrol_none post hpost)]
  rfl

/-- C5 (counterexample to the claim as stated): in
`patrolTest("a") 'b'` the opening quote is `"` but the greedy capture
runs to the LAST quote character of the text, a `'`; the captured
description is `a") 'b`, not `a` — the capture does not end at the
quote matching the opener. -/
theorem patrol_quote_mismatch_counterexample :
    parseTestFilesContent "patrolTest(\"a\") 'b'".toList "f.dart".toList
      = [⟨"a\") 'b".toList, "f.dart".toList⟩] ∧
    [(⟨"a\") 'b".toList, "f.dart".toList⟩ : TestCase)]
      ≠ [⟨"a".toList, "f.dart".toList⟩] := by
  refine ⟨by decide, by decide⟩

/-- C5 (witness for the amended theorem at `patrolTest("ab') x` —
opener `"`, closer `'`). -/
theorem patrol_extraction_witness :
    parseTestFilesContent "patrolTest(\"ab') x".toList "f.dart".toList
      = [⟨"ab".toList, "f.dart".toList⟩] := by
  have h := patrol_extraction [] '"' 'a' ['b'] '\'' ") x".toList "f.dart".toList
    (by decide) (by decide) (by decide) (by decide) (by decide) (by decide)
  simpa using h

/-! Structural lemmas for the report renderers: the requirement loop
and the orphan loop are folds that append sections in order. -/

theorem print_req_fold (m : List (List Char × List Specification))
    (reqs : List Requirement) :
    ∀ (tags0 : List (List Char)) (out0 : List (List Char)),
    reqs.foldl (fun (p : List (List Char) × List (List Char)) (req : Requirement) =>
        (p.1 ++ [req.Tag],
         p.2 ++ printSpecs (req.Tag ++ ": ".toList ++ req.Description)
           ((alookup m req.Tag).getD []))) (tags0, out0)
      = (tags0 ++ reqs.map (·.Tag),
         out0 ++ reqs.flatMap (fun req =>
           printSpecs (req.Tag ++ ": ".toList ++ req.Description)
             ((alookup m req.Tag).getD []))) := by
  induction reqs with
  | nil => intro tags0 out0; simp
  | cons req reqs' ih =>
    intro tags0 out0
    simp only [List.foldl_cons, ih, List.map_cons, List.flatMap_cons]
    simp [List.append_assoc]

theorem print_orphan_fold (m : List (List Char × List Specification))
    (tags : List (List Char)) (order : List (List Char)) :
    ∀ out1 : List (List Char),
    order.foldl (fun acc tag =>
        if tags.contains tag then acc
        else acc ++ printSpecs (tag ++ ": (no requirement description available)".toList)
          ((alookup m tag).getD [])) out1
      = out1 ++ (order.filter (fun t => !tags.contains t)).flatMap (fun tag =>
          printSpecs (tag ++ ": (no requirement description available)".toList)
            ((alookup m tag).getD [])) := by
  induction order with
  | nil => intro out1; simp
  | cons t order' ih =>
    intro out1
    simp only [List.foldl_cons]
    by_cases hc : tags.contains t
    · rw [if_pos hc, ih, List.filter_cons_of_neg (by simpa using hc)]
    · rw [if_neg hc, ih, List.filter_cons_of_pos (by simpa using hc), List.flatMap_cons]
      simp

theorem store_req_fold (m : List (List Char × List Specification))
    (reqs : List Requirement) :
    ∀ (tags0 : List (List Char)) (out0 : List Char),
    reqs.foldl (fun (p : List (List Char) × List Char) (req : Requirement) =>
        (p.1 ++ [req.Tag],
         p.2 ++ "- **".toList ++ req.Tag ++ ": ".toList ++ req.Description ++ "**\n".toList ++
           (match alookup m req.Tag with
            | some specs => (specs.map mdItem).flatten
            | none => "    (no specifications found)\n".toList))) (tags0, out0)
      = (tags0 ++ reqs.map (·.Tag),
         out0 ++ reqs.flatMap (fun req =>
           "- **".toList ++ req.Tag ++ ": ".toList ++ req.Description ++ "**\n".toList ++
             (match alookup m req.Tag with
              | some specs => (specs.map mdItem).flatten
              | none => "    (no specifications found)\n".toList))) := by
  induction reqs with
  | nil => intro tags0 out0; simp
  | cons req reqs' ih =>
    intro tags0 out0
    simp only [List.foldl_cons, ih, List.map_cons, List.flatMap_cons]
    simp [List.append_assoc]

theorem store_orphan_fold (m : List (List Char × List Specification))
    (tags : List (List Char)) (order : List (List Char)) :
    ∀ out1 : List Char,
    order.foldl (fun acc tag =>
        if tags.contains tag then acc
        else acc ++ "- **".toList ++ tag ++ ":**(no requirement description available)\n".toList ++
          (((alookup m tag).getD []).map mdItem).flatten) out1
      = out1 ++ (order.filter (fun t => !tags.contains t)).flatMap (fun tag =>
          "- **".toList ++ tag ++ ":**(no requirement description available)\n".toList ++
            (((alookup m tag).getD []).map mdItem).flatten) := by
  induction order with
  | nil => intro out1; simp
  | cons t order' ih =>
    intro out1
    simp only [List.foldl_cons]
    by_cases hc : tags.contains t
    · rw [if_pos hc, ih, List.filter_cons_of_neg (by simpa using hc)]
    · rw [if_neg hc, ih, List.filter_cons_of_pos (by simpa using hc), List.flatMap_cons]
      simp

/-- C8 (confirmed): for every specification map, untagged list,
requirement sequence and map iteration order, the rendered report —
console and markdown — is: one section per `Requirement` in parsed
order (the tag's bucket in bucket order, or the explicit
"no specifications found" placeholder inside `printSpecs` when the tag
has no bucket), then one section per orphan tag (a map key not among
the requirement tags, in iteration order), then the untagged section
only when the untagged list is non-empty.  An orphan section never
precedes a requirement section. -/
theorem report_section_order (m : List (List Char × List Specification))
    (untagged : List Specification) (reqs : List Requirement)
    (order : List (List Char))
    (horder : ∀ t, t ∈ order ↔ (alookup m t).isSome) :
    printSpecificationMap m untagged reqs order
      = reqs.flatMap (fun req =>
          printSpecs (req.Tag ++ ": ".toList ++ req.Description)
            ((alookup m req.Tag).getD []))
        ++ (order.filter (fun t => !(reqs.map (·.Tag)).contains t)).flatMap (fun tag =>
            printSpecs (tag ++ ": (no requirement description available)".toList)
              ((alookup m tag).getD []))
        ++ (match untagged with
            | [] => []
            | _ :: _ => printSpecs "(untagged specifications)".toList untagged) ∧
    (∀ t ∈ order.filter (fun t => !(reqs.map (·.Tag)).contains t),
        (alookup m t).isSome ∧ t ∉ reqs.map (·.Tag)) ∧
    storeSpecificationMap m untagged reqs order
      = "# Specifications Map (generated)\n\n".toList
        ++ reqs.flatMap (fun req =>
            "- **".toList ++ req.Tag ++ ": ".toList ++ req.Description ++ "**\n".toList ++
              (match alookup m req.Tag with
               | some specs => (specs.map mdItem).flatten
               | none => "    (no specifications found)\n".toList))
        ++ (order.filter (fun t => !(reqs.map (·.Tag)).contains t)).flatMap (fun tag =>
            "- **".toList ++ tag ++ ":**(no requirement description available)\n".toList ++
              (((alookup m tag).getD []).map mdItem).flatten)
        ++ (match untagged with
            | [] => []
            | _ :: _ => "- **(untagged specifications)**\n".toList
                ++ (untagged.map mdItem).flatten) := by
  refine ⟨?_, ?_, ?_⟩
  · unfold printSpecificationMap
    dsimp only
    rw [print_req_fold m reqs [] [], print_orphan_fold m ([] ++ reqs.map (·.Tag)) order]
    simp only [List.nil_append]
    cases untagged with
    | nil => simp
    | cons sp sps => simp [List.append_assoc]
  · intro t ht
    rw [List.mem_filter] at ht
    refine ⟨(horder t).1 ht.1, ?_⟩
    simpa using ht.2
  · unfold storeSpecificationMap
    dsimp only
    rw [store_req_fold m reqs [] _, store_orphan_fold m ([] ++ reqs.map (·.Tag)) order]
    simp only [List.nil_append]
    cases untagged with
    | nil => simp
    | cons sp sps => simp [List.append_assoc]

/-- C8 (witness): the theorem applied to a concrete map with one
requirement tag, one orphan tag and one untagged specification. -/
theorem report_section_order_witness :
    printSpecificationMap
        [("T2".toList, [⟨"a".toList, "f".toList⟩]), ("T3".toList, [⟨"b".toList, "f".toList⟩])]
        [⟨"u".toList, "f".toList⟩]
        [⟨"T1".toList, "D1".toList⟩, ⟨"T2".toList, "D2".toList⟩]
        ["T2".toList, "T3".toList]
      = ([⟨"T1".toList, "D1".toList⟩, ⟨"T2".toList, "D2".toList⟩] : List Requirement).flatMap
          (fun req =>
            printSpecs (req.Tag ++ ": ".toList ++ req.Description)
              ((alookup [("T2".toList, [⟨"a".toList, "f".toList⟩]),
                         ("T3".toList, [⟨"b".toList, "f".toList⟩])] req.Tag).getD []))
        ++ (["T2".toList, "T3".toList].filter
              (fun t => !(([⟨"T1".toList, "D1".toList⟩,
                ⟨"T2".toList, "D2".toList⟩] : List Requirement).map (·.Tag)).contains t)).flatMap
            (fun tag =>
              printSpecs (tag ++ ": (no requirement description available)".toList)
                ((alookup [("T2".toList, [⟨"a".toList, "f".toList⟩]),
                           ("T3".toList, [⟨"b".toList, "f".toList⟩])] tag).getD []))
        ++ (match [(⟨"u".toList, "f".toList⟩ : Specification)] with
            | [] => []
            | _ :: _ => printSpecs "(untagged specifications)".toList
                [⟨"u".toList, "f".toList⟩]) := by
  have horder : ∀ t, t ∈ ["T2".toList, "T3".toList]
      ↔ (alookup [("T2".toList, [(⟨"a".toList, "f".toList⟩ : Specification)]),
                  ("T3".toList, [⟨"b".toList, "f".toList⟩])] t).isSome := by
    intro t
    constructor
    · intro ht
      rcases List.mem_cons.1 ht with rfl | ht
      · decide
      · rcases List.mem_cons.1 ht with rfl | ht
        · decide
        · simp at ht
    · intro hsome
      by_cases h1 : ("T2".toList : List Char) = t
      · rw [← h1]; decide
      · by_cases h2 : ("T3".toList : List Char) = t
        · rw [← h2]; decide
        · exfalso
          rw [show alookup [("T2".toList, [(⟨"a".toList, "f".toList⟩ : Specification)]),
              ("T3".toList, [⟨"b".toList, "f".toList⟩])] t = none from by
            simp only [alookup]
            rw [if_neg h1, if_neg h2]] at hsome
          simp at hsome
  exact (report_section_order _ _ _ _ horder).1

/-- C9 helper: an unreadable test file aborts `parseTestFiles` with an
error. -/
theorem parseTestFiles_error (fs : FS) :
    ∀ (files : List (List Char)) (tf : List Char), tf ∈ files → fs tf = none →
    ∃ e, parseTestFiles fs files = .error e := by
  intro files
  induction files with
  | nil => intro tf htf _; simp at htf
  | cons g rest ih =>
    intro tf htf hnone
    cases hg : fs g with
    | none => exact ⟨"read ".toList ++ g, by simp [parseTestFiles, hg]⟩
    | some content =>
      have htf' : tf ∈ rest := by
        rcases List.mem_cons.1 htf with h1 | h1
        · subst h1; rw [hg] at hnone; cases hnone
        · exact h1
      obtain ⟨e, he⟩ := ih tf htf' hnone
      exact ⟨e, by simp [parseTestFiles, hg, he, Except.map]⟩

/-- C9 (confirmed): if any test file, or the requirement file
(including the default empty path, which never opens), is unreadable,
the run ends in the error path — the Go program prints the error and
exits non-zero — and no report output exists: the pipeline's result is
`.error` and report lines are only produced in the `.ok` case, the
parses all happening before any printing. -/
theorem io_error_aborts (fs : FS) (testFiles : List (List Char)) (reqsPath : List Char)
    (order : List (List Char)) :
    ((∃ tf ∈ testFiles, fs tf = none) →
      ∃ e, mainRun fs testFiles reqsPath order = .error e) ∧
    (fs reqsPath = none →
      ∃ e, mainRun fs testFiles reqsPath order = .error e) := by
  constructor
  · rintro ⟨tf, htf, hnone⟩
    obtain ⟨e, he⟩ := parseTestFiles_error fs testFiles tf htf hnone
    exact ⟨e, by simp [mainRun, he]⟩
  · intro hreq
    cases hpt : parseTestFiles fs testFiles with
    | error e => exact ⟨e, by simp [mainRun, hpt]⟩
    | ok tcs =>
      refine ⟨"open ".toList ++ reqsPath, ?_⟩
      simp [mainRun, hpt, parseRequirementsFile, hreq]

/-- C9 (witness): a missing test file and the default empty
requirements path both produce an error result. -/
theorem io_error_aborts_witness :
    (∃ e, mainRun
        (fun p => if p = "a.dart".toList then some "patrolTest('x: y')".toList else none)
        ["a.dart".toList, "missing.dart".toList] "reqs.md".toList [] = .error e) ∧
    (∃ e, mainRun
        (fun p => if p = "a.dart".toList then some "patrolTest('x: y')".toList else none)
        ["a.dart".toList] [] [] = .error e) :=
  ⟨(io_error_aborts _ _ _ _).1 ⟨"missing.dart".toList, by decide, by decide⟩,
   (io_error_aborts _ _ _ _).2 (by decide)⟩

/-- C3: the code renders orphan-tag sections by ranging over the Go
map, whose iteration order is unspecified; two admissible iteration
orders of the same specification map produce different reports, so the
rendered report is NOT deterministic across runs, contradicting the
claim (the design note in the spec prescribes an order-preserving map,
which the code does not use). -/
theorem orphan_order_nondeterministic :
    createSpecificationMap
        [⟨"A: x".toList, "f".toList⟩, ⟨"B: y".toList, "f".toList⟩]
      = some ([("A".toList, [⟨"x".toList, "f".toList⟩]),
               ("B".toList, [⟨"y".toList, "f".toList⟩])], []) ∧
    (∀ t, t ∈ ["A".toList, "B".toList]
      ↔ (alookup [("A".toList, [(⟨"x".toList, "f".toList⟩ : Specification)]),
                  ("B".toList, [⟨"y".toList, "f".toList⟩])] t).isSome) ∧
    (∀ t, t ∈ ["B".toList, "A".toList]
      ↔ (alookup [("A".toList, [(⟨"x".toList, "f".toList⟩ : Specification)]),
                  ("B".toList, [⟨"y".toList, "f".toList⟩])] t).isSome) ∧
    printSpecificationMap
        [("A".toList, [⟨"x".toList, "f".toList⟩]), ("B".toList, [⟨"y".toList, "f".toList⟩])]
        [] [] ["A".toList, "B".toList]
      ≠ printSpecificationMap
        [("A".toList, [⟨"x".toList, "f".toList⟩]), ("B".toList, [⟨"y".toList, "f".toList⟩])]
        [] [] ["B".toList, "A".toList] := by
  refine ⟨by decide, ?_, ?_, by decide⟩
  · intro t
    constructor
    · intro ht
      rcases List.mem_cons.1 ht with rfl | ht
      · decide
      · rcases List.mem_cons.1 ht with rfl | ht
        · decide
        · simp at ht
    · intro hsome
      by_cases h1 : ("A".toList : List Char) = t
      · rw [← h1]; decide
      · by_cases h2 : ("B".toList : List Char) = t
        · rw [← h2]; decide
        · exfalso
          rw [show alookup [("A".toList, [(⟨"x".toList, "f".toList⟩ : Specification)]),
              ("B".toList, [⟨"y".toList, "f".toList⟩])] t = none from by
            simp only [alookup]
            rw [if_neg h1, if_neg h2]] at hsome
          simp at hsome
  · intro t
    constructor
    · intro ht
      rcases List.mem_cons.1 ht with rfl | ht
      · decide
      · rcases List.mem_cons.1 ht with rfl | ht
        · decide
        · simp at ht
    · intro hsome
      by_cases h1 : ("A".toList : List Char) = t
      · rw [← h1]; decide
      · by_cases h2 : ("B".toList : List Char) = t
        · rw [← h2]; decide
        · exfalso
          rw [show alookup [("A".toList, [(⟨"x".toList, "f".toList⟩ : Specification)]),
              ("B".toList, [⟨"y".toList, "f".toList⟩])] t = none from by
            simp only [alookup]
            rw [if_neg h1, if_neg h2]] at hsome
          simp at hsome

end Testcases
